import Mathlib

/-!
Verification of the state-sync manifest and chunk-transfer engine.

The repository ships the engine's test suites; the engine itself
(manifest computation, the `IncompleteState` chunk-assembly state machine,
the `StateSyncCache`, file grouping and the priority function) is modelled
here as a shallow embedding, following the specification of the system and
the behaviour exercised by the tests.  Byte strings are lists of naturals;
the domain-separated collision-resistant hash of the implementation is
modelled as an injective encoding into the naturals, so hash equality
coincides with content equality exactly as a perfect hash.
-/

namespace StateSync

/-- Bytes of a file. -/
abbrev Bytes := List Nat

/-- Modelled from the spec: a checkpoint is an immutable on-disk snapshot,
represented by its (path-sorted) list of files with raw contents. -/
abbrev Checkpoint := List (String × Bytes)

/-- Injective encoding of a list of naturals into a natural. -/
def encList : List Nat → Nat
  | [] => 0
  | a :: l => Nat.pair a (encList l) + 1

theorem encList_inj : ∀ {l₁ l₂ : List Nat}, encList l₁ = encList l₂ → l₁ = l₂
  | [], [], _ => rfl
  | [], _ :: _, h => by simp [encList] at h
  | _ :: _, [], h => by simp [encList] at h
  | a :: l, b :: m, h => by
    simp only [encList, Nat.add_right_cancel_iff, Nat.pair_eq_pair] at h
    exact h.1 ▸ (encList_inj h.2) ▸ rfl

/-- Modelled from the spec: the domain-separated hash of a chunk's bytes.
The collision-resistant hash of the implementation is modelled as an
injective encoding tagged with the chunk domain. -/
def chunkHash (b : Bytes) : Nat := Nat.pair 1 (encList b)

theorem chunkHash_inj {b₁ b₂ : Bytes} (h : chunkHash b₁ = chunkHash b₂) : b₁ = b₂ :=
  encList_inj (Nat.pair_eq_pair.mp h).2

/-- Modelled from the spec: the file hash is derived from the ordered chunk
hashes of the file. -/
def fileHashOf (hs : List Nat) : Nat := Nat.pair 2 (encList hs)

theorem fileHashOf_inj {h₁ h₂ : List Nat} (h : fileHashOf h₁ = fileHashOf h₂) : h₁ = h₂ :=
  encList_inj (Nat.pair_eq_pair.mp h).2

/-- Read the byte range `[off, off+len)` of a file. -/
def readRange (l : Bytes) (off len : Nat) : Bytes := (l.drop off).take len

/-- Modelled from the spec: a sparse-file write of `d` at offset `off`;
positions between the end of the file and `off` read as zeros. -/
def writeAt (l : Bytes) (off : Nat) (d : Bytes) : Bytes :=
  l.take off ++ List.replicate (off - l.length) 0 ++ d ++ l.drop (off + d.length)

/-- A fresh (sparse, all-zero) file of the given size. -/
def zeros (n : Nat) : Bytes := List.replicate n 0

theorem length_writeAt_of_le {l : Bytes} {off : Nat} {d : Bytes}
    (h : off + d.length ≤ l.length) : (writeAt l off d).length = l.length := by
  have hoff : off ≤ l.length := le_trans (Nat.le_add_right _ _) h
  simp [writeAt, Nat.sub_eq_zero_of_le hoff, Nat.min_eq_left hoff]
  omega

theorem getElem?_writeAt_of_le {l : Bytes} {off : Nat} {d : Bytes}
    (h : off + d.length ≤ l.length) (p : Nat) :
    (writeAt l off d)[p]? =
      if off ≤ p ∧ p < off + d.length then d[p - off]? else l[p]? := by
  have hoff : off ≤ l.length := le_trans (Nat.le_add_right _ _) h
  have htk : (l.take off).length = off := by
    simp [Nat.min_eq_left hoff]
  rw [writeAt, Nat.sub_eq_zero_of_le hoff, List.replicate_zero, List.append_nil,
    List.append_assoc]
  rcases Nat.lt_or_ge p off with hp | hp
  · rw [List.getElem?_append_left (by rw [htk]; exact hp)]
    rw [List.getElem?_take_of_lt hp]
    have : ¬ (off ≤ p ∧ p < off + d.length) := by omega
    simp [this]
  · rw [List.getElem?_append_right (by rw [htk]; exact hp), htk]
    rcases Nat.lt_or_ge p (off + d.length) with hp2 | hp2
    · rw [List.getElem?_append_left (by omega)]
      have : off ≤ p ∧ p < off + d.length := ⟨hp, hp2⟩
      simp [this]
    · rw [List.getElem?_append_right (by omega), List.getElem?_drop]
      have harith : off + d.length + (p - off - d.length) = p := by omega
      rw [harith]
      have : ¬ (off ≤ p ∧ p < off + d.length) := by omega
      simp [this]

theorem getElem?_readRange {l : Bytes} {off len q : Nat} (h : q < len) :
    (readRange l off len)[q]? = l[off + q]? := by
  rw [readRange, List.getElem?_take_of_lt h, List.getElem?_drop]

theorem readRange_eq_of_pointwise {l l' : Bytes} {off len : Nat}
    (h : ∀ p, off ≤ p → p < off + len → l[p]? = l'[p]?) :
    readRange l off len = readRange l' off len := by
  apply List.ext_getElem?
  intro q
  rcases Nat.lt_or_ge q len with hq | hq
  · rw [getElem?_readRange hq, getElem?_readRange hq]
    exact h (off + q) (Nat.le_add_right _ _) (by omega)
  · have h1 : (readRange l off len).length ≤ q := by
      simp [readRange]; omega
    have h2 : (readRange l' off len).length ≤ q := by
      simp [readRange]; omega
    rw [List.getElem?_eq_none h1, List.getElem?_eq_none h2]

theorem getElem?_of_readRange_eq {l l' : Bytes} {off len : Nat}
    (h : readRange l off len = readRange l' off len) {p : Nat}
    (h1 : off ≤ p) (h2 : p < off + len) : l[p]? = l'[p]? := by
  have hq : p - off < len := by omega
  have := congrArg (fun x => x[p - off]?) h
  simpa [getElem?_readRange hq, Nat.add_sub_cancel' h1] using this

/-- Fuel-driven worker for `splitChunks`; the fuel is an upper bound on the
file length, so the recursion is structural and computes by reduction. -/
def splitChunksGo (S : Nat) : Nat → Bytes → List Bytes
  | _, [] => []
  | 0, _ :: _ => []
  | fuel + 1, b => b.take S :: splitChunksGo S fuel (b.drop S)

/-- Split a file into fixed-size chunks; the last chunk may be short. -/
def splitChunks (S : Nat) (b : Bytes) : List Bytes :=
  if S = 0 then [] else splitChunksGo S b.length b

theorem splitChunksGo_congr {S : Nat} (hS : S ≠ 0) :
    ∀ (f1 f2 : Nat) (b : Bytes), b.length ≤ f1 → b.length ≤ f2 →
      splitChunksGo S f1 b = splitChunksGo S f2 b := by
  intro f1
  induction f1 with
  | zero =>
    intro f2 b h1 _
    have hb : b = [] := by
      cases b with
      | nil => rfl
      | cons x xs => simp at h1
    subst hb
    cases f2 <;> rfl
  | succ f1 ih =>
    intro f2 b h1 h2
    cases b with
    | nil => cases f2 <;> rfl
    | cons x xs =>
      cases f2 with
      | zero => simp at h2
      | succ f2 =>
        simp only [splitChunksGo]
        congr 1
        apply ih
        · simp only [List.length_drop, List.length_cons] at h1 ⊢
          omega
        · simp only [List.length_drop, List.length_cons] at h2 ⊢
          omega

theorem splitChunks_nil {S : Nat} : splitChunks S [] = [] := by
  unfold splitChunks
  split <;> rfl

theorem splitChunks_pos {S : Nat} {b : Bytes} (hS : S ≠ 0) (hb : b ≠ []) :
    splitChunks S b = b.take S :: splitChunks S (b.drop S) := by
  unfold splitChunks
  rw [if_neg hS, if_neg hS]
  cases b with
  | nil => exact absurd rfl hb
  | cons x xs =>
    simp only [List.length_cons, splitChunksGo]
    congr 1
    apply splitChunksGo_congr hS
    · simp only [List.length_drop, List.length_cons]
      omega
    · exact Nat.le_refl _

theorem splitChunks_getElem? {S : Nat} (hS : 0 < S) :
    ∀ (k : Nat) (b : Bytes) (piece : Bytes), (splitChunks S b)[k]? = some piece →
      piece = readRange b (k * S) S ∧ piece ≠ [] := by
  intro k
  induction k with
  | zero =>
    intro b piece h
    cases hb : b with
    | nil => rw [hb, splitChunks_nil] at h; simp at h
    | cons x xs =>
      rw [hb, splitChunks_pos (by omega) (by simp)] at h
      simp only [List.getElem?_cons_zero, Option.some.injEq] at h
      subst h
      refine ⟨by simp [readRange, hb], ?_⟩
      simp [hb, List.take_eq_nil_iff]
      omega
  | succ k ih =>
    intro b piece h
    cases hb : b with
    | nil => rw [hb, splitChunks_nil] at h; simp at h
    | cons x xs =>
      rw [hb, splitChunks_pos (by omega) (by simp)] at h
      simp only [List.getElem?_cons_succ] at h
      have hmem := ih (b.drop S) piece (by rw [hb]; exact h)
      refine ⟨?_, hmem.2⟩
      rw [hmem.1, readRange, readRange, List.drop_drop]
      have harith : S + k * S = (k + 1) * S := by ring
      rw [harith, hb]

theorem splitChunks_isSome_iff {S : Nat} (hS : 0 < S) :
    ∀ (k : Nat) (b : Bytes), (splitChunks S b)[k]?.isSome ↔ k * S < b.length := by
  intro k
  induction k with
  | zero =>
    intro b
    cases hb : b with
    | nil => rw [splitChunks_nil]; simp
    | cons x xs =>
      rw [splitChunks_pos (by omega) (by simp)]
      simp
  | succ k ih =>
    intro b
    cases hb : b with
    | nil => rw [splitChunks_nil]; simp
    | cons x xs =>
      rw [splitChunks_pos (by omega) (by simp)]
      simp only [List.getElem?_cons_succ]
      rw [← hb, ih (b.drop S)]
      simp only [List.length_drop, hb, List.length_cons]
      have harith : (k + 1) * S = k * S + S := by ring
      rw [harith]
      omega

theorem length_readRange_chunk {S : Nat} (hS : 0 < S) {b piece : Bytes} {k : Nat}
    (h : (splitChunks S b)[k]? = some piece) :
    piece.length = min S (b.length - k * S) := by
  have := (splitChunks_getElem? hS k b piece h).1
  rw [this, readRange]
  simp

theorem readRange_self_chunk {S : Nat} (hS : 0 < S) {b piece : Bytes} {k : Nat}
    (h : (splitChunks S b)[k]? = some piece) :
    readRange b (k * S) piece.length = piece := by
  have h1 := (splitChunks_getElem? hS k b piece h).1
  rw [h1, readRange, readRange, List.length_take, List.take_eq_take]
  simp [Nat.min_assoc]

theorem splitChunks_cover {S : Nat} (hS : 0 < S) {b : Bytes} {p : Nat} (hp : p < b.length) :
    ∃ k piece, (splitChunks S b)[k]? = some piece ∧ k * S ≤ p ∧ p < k * S + piece.length := by
  refine ⟨p / S, ?_⟩
  have hcomm : p / S * S = S * (p / S) := Nat.mul_comm _ _
  have hk : p / S * S ≤ p := Nat.div_mul_le_self p S
  have hk2 : p < p / S * S + S := by
    have hdm := Nat.div_add_mod p S
    have hmod := Nat.mod_lt p hS
    omega
  have hsome : (splitChunks S b)[p / S]?.isSome := by
    rw [splitChunks_isSome_iff hS]
    omega
  rcases Option.isSome_iff_exists.mp hsome with ⟨piece, hpiece⟩
  refine ⟨piece, hpiece, hk, ?_⟩
  rw [length_readRange_chunk hS hpiece]
  omega

theorem eq_of_chunk_ranges_eq {S : Nat} (hS : 0 < S) {l b : Bytes}
    (hlen : l.length = b.length)
    (h : ∀ k piece, (splitChunks S b)[k]? = some piece →
      readRange l (k * S) piece.length = readRange b (k * S) piece.length) :
    l = b := by
  apply List.ext_getElem?
  intro p
  rcases Nat.lt_or_ge p b.length with hp | hp
  · rcases splitChunks_cover hS hp with ⟨k, piece, hpiece, hk1, hk2⟩
    exact getElem?_of_readRange_eq (h k piece hpiece) hk1 hk2
  · rw [List.getElem?_eq_none (by omega), List.getElem?_eq_none hp]

/-- Modelled from the spec: one row of the manifest's file table. -/
structure FileInfo where
  relative_path : String
  size_bytes : Nat
  file_hash : Nat
  deriving DecidableEq

/-- Modelled from the spec: one row of the manifest's chunk table. -/
structure ChunkInfo where
  file_index : Nat
  offset : Nat
  size_bytes : Nat
  chunk_hash : Nat
  deriving DecidableEq

instance : Inhabited ChunkInfo := ⟨⟨0, 0, 0, 0⟩⟩

/-- Modelled from the spec: the canonical, content-addressed description of a
checkpoint (`version`, ordered file table, ordered chunk table). -/
structure Manifest where
  version : Nat
  file_table : List FileInfo
  chunk_table : List ChunkInfo
  deriving DecidableEq

/-- Hashes of the chunks of a single file, in order. -/
def fileChunkHashes (S : Nat) (b : Bytes) : List Nat := (splitChunks S b).map chunkHash

/-- Chunk-table rows of the file with index `f` and contents `b`. -/
def fileChunks (S f : Nat) (b : Bytes) : List ChunkInfo :=
  (splitChunks S b).enum.map (fun kc => ⟨f, kc.1 * S, kc.2.length, chunkHash kc.2⟩)

/-- Modelled from the spec: `compute_manifest` without a previous manifest.
Files are visited in the checkpoint's deterministic (path-sorted) order; each
is split into fixed-size chunks (the last chunk may be short), each chunk is
hashed, and the file hash is derived from the ordered chunk hashes. -/
def compute_manifest (version S : Nat) (cp : Checkpoint) : Manifest :=
  ⟨version,
   cp.map (fun pb => ⟨pb.1, pb.2.length, fileHashOf (fileChunkHashes S pb.2)⟩),
   (cp.enum.map (fun ipb => fileChunks S ipb.1 ipb.2.2)).flatten⟩

/-- Injective encoding of a path. -/
def pathEnc (s : String) : Nat := encList (s.toList.map Char.toNat)

/-- Injective encoding of a file-table row. -/
def fileInfoEnc (fi : FileInfo) : Nat :=
  Nat.pair (pathEnc fi.relative_path) (Nat.pair fi.size_bytes fi.file_hash)

/-- Injective encoding of a chunk-table row. -/
def chunkInfoEnc (ci : ChunkInfo) : Nat :=
  Nat.pair ci.file_index (Nat.pair ci.offset (Nat.pair ci.size_bytes ci.chunk_hash))

/-- Modelled from the spec: the root hash of a manifest, a domain-separated
hash over `(version, file_table, chunk_table)`. -/
def manifestHash (m : Manifest) : Nat :=
  Nat.pair 3 (Nat.pair m.version
    (Nat.pair (encList (m.file_table.map fileInfoEnc))
              (encList (m.chunk_table.map chunkInfoEnc))))

/-- Modelled from the spec: validating a manifest against a root hash. -/
def validate_manifest (m : Manifest) (rootHash : Nat) : Bool :=
  manifestHash m == rootHash

/-- Look up, in a previous manifest, the hash the chunk of file `path` at
byte offset `off` was recorded with. -/
def lookupChunkHash (prev : Manifest) (path : String) (off : Nat) : Option Nat :=
  (prev.file_table.enum.find? (fun fe => fe.2.relative_path == path)).bind
    (fun fe => (prev.chunk_table.find? (fun ci => ci.file_index == fe.1 && ci.offset == off)).map
      (fun ci => ci.chunk_hash))

/-- Modelled from the spec: in incremental mode a chunk whose backing byte
range is reported unchanged by the producer's dirty tracking (it appears in
`cleanList` as a `(path, chunk-index)` pair) reuses the prior manifest's hash
verbatim; a dirty chunk is rehashed. -/
def reuse_or_hash (prev : Manifest) (S : Nat) (cleanList : List (String × Nat))
    (path : String) (k : Nat) (piece : Bytes) : Nat :=
  if (path, k) ∈ cleanList then (lookupChunkHash prev path (k * S)).getD (chunkHash piece)
  else chunkHash piece

/-- Chunk hashes of one file in incremental mode. -/
def fileChunkHashesInc (prev : Manifest) (S : Nat) (cleanList : List (String × Nat))
    (path : String) (b : Bytes) : List Nat :=
  (splitChunks S b).enum.map (fun kc => reuse_or_hash prev S cleanList path kc.1 kc.2)

/-- Chunk-table rows of one file in incremental mode. -/
def fileChunksInc (prev : Manifest) (S : Nat) (cleanList : List (String × Nat))
    (path : String) (f : Nat) (b : Bytes) : List ChunkInfo :=
  (splitChunks S b).enum.map
    (fun kc => ⟨f, kc.1 * S, kc.2.length, reuse_or_hash prev S cleanList path kc.1 kc.2⟩)

/-- Modelled from the spec: `compute_manifest` with a previous manifest,
reusing the prior hash for every chunk the dirty tracking reports clean. -/
def compute_manifest_incremental (version S : Nat) (cp : Checkpoint) (prev : Manifest)
    (cleanList : List (String × Nat)) : Manifest :=
  ⟨version,
   cp.map (fun pb => ⟨pb.1, pb.2.length,
     fileHashOf (fileChunkHashesInc prev S cleanList pb.1 pb.2)⟩),
   (cp.enum.map (fun ipb => fileChunksInc prev S cleanList ipb.2.1 ipb.1 ipb.2.2)).flatten⟩

/-- Modelled from the spec: classification of a peer advert by the priority
function. -/
inductive SyncPriority where
  | Fetch
  | Stash
  | Drop
  deriving DecidableEq

/-- Modelled from the spec: given the consumer's desired `(height, root_hash)`
and a peer-advertised artifact id, the priority function fetches an exact
match, drops adverts below the target height or with an incompatible hash, and
stashes adverts above the target height. -/
def priority_fn (targetHeight targetHash advertHeight advertHash : Nat) : SyncPriority :=
  if advertHeight < targetHeight then .Drop
  else if targetHeight < advertHeight then .Stash
  else if advertHash = targetHash then .Fetch
  else .Drop

/-- Modelled from the spec: first chunk id of the reserved range for
synthetic file-group chunks. -/
def FILE_GROUP_CHUNK_ID_OFFSET : Nat := 1 <<< 30

/-- Greedy packing of `(file index, size)` pairs into groups whose total
size respects `S` as an upper bound; a file joins the current group when it
fits, otherwise it opens a new group. -/
def greedyPackGo (S : Nat) (cur : List (Nat × Nat)) (curSize : Nat) :
    List (Nat × Nat) → List (List (Nat × Nat))
  | [] => if cur.isEmpty then [] else [cur]
  | f :: rest =>
    if cur.isEmpty || curSize + f.2 ≤ S then greedyPackGo S (cur ++ [f]) (curSize + f.2) rest
    else cur :: greedyPackGo S [f] f.2 rest

def greedyPack (S : Nat) (files : List (Nat × Nat)) : List (List (Nat × Nat)) :=
  greedyPackGo S [] 0 files

/-- Positions in the chunk table that belong to file `f`. -/
def chunkIndicesOfFile (m : Manifest) (f : Nat) : List Nat :=
  (m.chunk_table.enum.filter (fun jc => jc.2.file_index == f)).map (fun jc => jc.1)

/-- Modelled from the spec: the file-group plan.  Files smaller than the
configured threshold `T` are concatenated — respecting the chunk size `S` as
an upper bound per group — into synthetic chunks addressed above
`FILE_GROUP_CHUNK_ID_OFFSET`; each group maps its chunk id to the chunk-table
indices of its member files.  The plan is a pure function of the manifest. -/
def build_file_group_chunks (T S : Nat) (m : Manifest) : List (Nat × List Nat) :=
  let eligible := (m.file_table.enum.filter (fun fe => fe.2.size_bytes < T)).map
    (fun fe => (fe.1, fe.2.size_bytes))
  (greedyPack S eligible).enum.map
    (fun kp => (FILE_GROUP_CHUNK_ID_OFFSET + kp.1,
      (kp.2.map (fun fs => chunkIndicesOfFile m fs.1)).flatten))

/-- Whether chunk-table position `j` is covered by some file group. -/
def isGrouped (groups : List (Nat × List Nat)) (j : Nat) : Bool :=
  groups.any (fun g => g.2.contains j)

/-- The payload delivered for a chunk id: chunk 0 carries the manifest,
every other id carries raw bytes. -/
inductive Payload where
  | manifest (m : Manifest)
  | bytes (b : Bytes)
  deriving DecidableEq

/-- Modelled from the spec: the completed artifact delivered to the
state-management collaborator. -/
structure Artifact where
  height : Nat
  root_hash : Nat
  checkpoint : Checkpoint
  manifest : Manifest
  state_sync_file_group : List (Nat × List Nat)
  deriving DecidableEq

/-- Modelled from the spec: the per-download state machine's state.
`Blank` awaits chunk 0; `Loading` holds the manifest, the file-group map, the
outstanding chunk ids and the scratchpad; `Complete` is terminal.  The
scratchpad is the list of files under reconstruction, index-aligned with the
manifest's file table. -/
inductive DownloadState where
  | blank
  | loading (manifest : Manifest) (state_sync_file_group : List (Nat × List Nat))
      (fetch_chunks : Finset Nat) (scratch : List Bytes)
  | complete (artifact : Artifact)
  deriving DecidableEq

/-- Modelled from the spec: the single cache entry salvaged from a dropped
download: its height, manifest, still-missing chunk-table indices (ungrouped)
and the files of its scratchpad (moved into the cache directory). -/
structure CacheEntry where
  height : Nat
  manifest : Manifest
  missing_chunks : Finset Nat
  files : Checkpoint
  deriving DecidableEq

/-- Modelled from the spec: where a new download obtains its initial
coverage from: nothing, a `StateSyncCache` entry, or chunks copied out of an
existing local checkpoint (`plan` is the set of chunk-table indices of the
target manifest the local checkpoint claims to share; `localFiles` are the
actual on-disk bytes, which may be corrupt). -/
inductive CoverageSource where
  | fresh
  | fromCache (e : CacheEntry)
  | fromLocal (plan : Finset Nat) (localFiles : Checkpoint)

/-- Static configuration of one sync attempt. -/
structure SyncConf where
  height : Nat
  rootHash : Nat
  chunkSize : Nat
  threshold : Nat

/-- The scratchpad files paired with their manifest paths. -/
def zipPaths (m : Manifest) (scratch : List Bytes) : Checkpoint :=
  (m.file_table.map (fun fi => fi.relative_path)).zip scratch

/-- File index a chunk-table position belongs to. -/
def fileIndexOfChunk (m : Manifest) (j : Nat) : Nat :=
  (m.chunk_table.getD j default).file_index

/-- Contents of file `f` of a checkpoint. -/
def contentOf (cp : Checkpoint) (f : Nat) : Bytes := (cp.getD f ("", [])).2

/-- The bytes a chunk-table row describes, read out of a checkpoint. -/
def ciBytes (cp : Checkpoint) (ci : ChunkInfo) : Bytes :=
  readRange (contentOf cp ci.file_index) ci.offset ci.size_bytes

/-- Declared size of file `f` in the manifest. -/
def fileSize (m : Manifest) (f : Nat) : Nat :=
  ((m.file_table.getD f ⟨"", 0, 0⟩)).size_bytes

/-- Modelled from the spec: the chunk ids re-added for the files that failed
completion-time re-validation — the transfer ids of their ungrouped chunks
plus every file group containing one of their chunks. -/
def refetchIds (m : Manifest) (groups : List (Nat × List Nat)) (bad : List Nat) : Finset Nat :=
  (((List.range m.chunk_table.length).filter
      (fun j => decide (fileIndexOfChunk m j ∈ bad) && !(isGrouped groups j))).map
    (fun j => j + 1)).toFinset ∪
  ((groups.filter (fun g => g.2.any (fun j => decide (fileIndexOfChunk m j ∈ bad)))).map
    (fun g => g.1)).toFinset

/-- Modelled from the spec: files that failed re-validation are made fresh
again (truncated back to all zeros of their declared size) before their
chunks are re-fetched. -/
def resetFiles (m : Manifest) (scratch : List Bytes) (bad : List Nat) : List Bytes :=
  (List.range scratch.length).map
    (fun f => if f ∈ bad then zeros (fileSize m f) else scratch.getD f [])

/-- Files of the assembled scratchpad whose recomputed file-table entry
disagrees with the target manifest's. -/
def badFiles (cfg : SyncConf) (m : Manifest) (scratch : List Bytes) : List Nat :=
  (List.range m.file_table.length).filter
    (fun f => !((compute_manifest m.version cfg.chunkSize
      (zipPaths m scratch)).file_table[f]? == m.file_table[f]?))

/-- Modelled from the spec: when `outstanding_chunk_ids` empties, the
manifest of the assembled scratchpad is recomputed and compared per file with
the target manifest; if every file agrees the scratchpad is promoted and the
state machine transitions to `Complete`, otherwise the disagreeing files'
chunks are re-added for a bounded retry round. -/
def checkCompletion (cfg : SyncConf) (m : Manifest) (groups : List (Nat × List Nat))
    (scratch : List Bytes) : DownloadState :=
  if (badFiles cfg m scratch).isEmpty then
    .complete ⟨cfg.height, cfg.rootHash, zipPaths m scratch, m, groups⟩
  else .loading m groups (refetchIds m groups (badFiles cfg m scratch))
    (resetFiles m scratch (badFiles cfg m scratch))

/-- Enter `Loading`, or run the completion check at once when nothing is
outstanding. -/
def mkLoading (cfg : SyncConf) (m : Manifest) (groups : List (Nat × List Nat))
    (fetch : Finset Nat) (scratch : List Bytes) : DownloadState :=
  if fetch.Nonempty then .loading m groups fetch scratch else checkCompletion cfg m groups scratch

/-- An all-zero scratchpad shaped after the manifest's file table. -/
def zeroScratch (m : Manifest) : List Bytes :=
  m.file_table.map (fun fi => zeros fi.size_bytes)

/-- Modelled from the spec: the initial outstanding set of a download whose
coverage was copied out of a local checkpoint sharing the chunks in `plan` —
the transfer ids of the uncovered ungrouped chunks plus every group with an
uncovered member. -/
def initFetchLocal (m : Manifest) (groups : List (Nat × List Nat)) (plan : Finset Nat) :
    Finset Nat :=
  (((List.range m.chunk_table.length).filter
      (fun j => !(decide (j ∈ plan)) && !(isGrouped groups j))).map (fun j => j + 1)).toFinset ∪
  ((groups.filter (fun g => g.2.any (fun j => !(decide (j ∈ plan))))).map
    (fun g => g.1)).toFinset

/-- The scratchpad of a download copying from a local checkpoint: every file
with a covered chunk starts as the local checkpoint's on-disk bytes (possibly
corrupt), every other file starts fresh. -/
def localScratch (m : Manifest) (plan : Finset Nat) (localFiles : Checkpoint) : List Bytes :=
  m.file_table.enum.map
    (fun ffi =>
      if (chunkIndicesOfFile m ffi.1).any (fun j => decide (j ∈ plan)) then
        (List.lookup ffi.2.relative_path localFiles).getD (zeros ffi.2.size_bytes)
      else zeros ffi.2.size_bytes)

/-- Modelled from the spec: the initial outstanding set of a download seeded
from a cache entry — the transfer ids of the cache's still-missing ungrouped
chunks, plus every file-group chunk id. -/
def initFetchCache (m : Manifest) (groups : List (Nat × List Nat)) (missing : Finset Nat) :
    Finset Nat :=
  ((missing.filter (fun j => ¬ isGrouped groups j = true)).image (fun j => j + 1)) ∪
  (groups.map (fun g => g.1)).toFinset

/-- The scratchpad of a download seeded from a cache entry: the cache's files
looked up by path, falling back to fresh files. -/
def cacheScratch (m : Manifest) (e : CacheEntry) : List Bytes :=
  m.file_table.map
    (fun fi => (List.lookup fi.relative_path e.files).getD (zeros fi.size_bytes))

/-- Modelled from the spec: the initial scratchpad and outstanding set of a
new download, subtracting coverage from a cache entry with a matching
manifest or from chunks copied out of a local checkpoint. -/
def init_coverage (cov : CoverageSource) (m : Manifest) (groups : List (Nat × List Nat)) :
    List Bytes × Finset Nat :=
  match cov with
  | .fresh => (zeroScratch m, initFetchLocal m groups ∅)
  | .fromCache e =>
    if e.manifest = m then (cacheScratch m e, initFetchCache m groups e.missing_chunks)
    else (zeroScratch m, initFetchLocal m groups ∅)
  | .fromLocal plan localFiles => (localScratch m plan localFiles, initFetchLocal m groups plan)

/-- Demultiplex and validate a file-group chunk's bytes against the chunk
rows of its member files: each piece must hash to the recorded chunk hash and
the payload must split exactly. -/
def demuxPieces (ct : List ChunkInfo) : List Nat → Bytes → Option (List (ChunkInfo × Bytes))
  | [], b => if b.isEmpty then some [] else none
  | j :: js, b =>
    match ct[j]? with
    | none => none
    | some ci =>
      if chunkHash (b.take ci.size_bytes) = ci.chunk_hash then
        (demuxPieces ct js (b.drop ci.size_bytes)).map
          (fun rest => (ci, b.take ci.size_bytes) :: rest)
      else none

/-- Write one validated chunk into the scratchpad at its manifest-recorded
file and offset. -/
def writeChunk (scratch : List Bytes) (ci : ChunkInfo) (piece : Bytes) : List Bytes :=
  scratch.set ci.file_index (writeAt (scratch.getD ci.file_index []) ci.offset piece)

/-- Modelled from the spec: `Chunkable::add_chunk`.  Chunk 0 must carry a
manifest whose self-hash equals the advertised root hash; it moves the
machine from `Blank` to `Loading` with the file-group map and initial
coverage computed.  Any other id is accepted only while outstanding: its
bytes are validated against the manifest-recorded chunk hash (a group id is
demultiplexed and validated per member) and written into the scratchpad;
invalid bytes are discarded with the id left outstanding, and duplicate or
never-requested ids are idempotent no-ops.  Whenever the outstanding set
empties the completion check runs. -/
def add_chunk (cfg : SyncConf) (cov : CoverageSource) (s : DownloadState)
    (id : Nat) (p : Payload) : DownloadState :=
  match s with
  | .blank =>
    match id, p with
    | 0, .manifest m =>
      if manifestHash m = cfg.rootHash then
        let groups := build_file_group_chunks cfg.threshold cfg.chunkSize m
        let init := init_coverage cov m groups
        mkLoading cfg m groups init.2 init.1
      else .blank
    | _, _ => .blank
  | .loading m groups fetch scratch =>
    match p with
    | .bytes b =>
      if id ∈ fetch then
        match groups.find? (fun g => g.1 == id) with
        | some g =>
          match demuxPieces m.chunk_table g.2 b with
          | some pieces =>
            mkLoading cfg m groups (fetch.erase id)
              (pieces.foldl (fun sc q => writeChunk sc q.1 q.2) scratch)
          | none => .loading m groups fetch scratch
        | none =>
          match m.chunk_table[id - 1]? with
          | some ci =>
            if chunkHash b = ci.chunk_hash then
              mkLoading cfg m groups (fetch.erase id) (writeChunk scratch ci b)
            else .loading m groups fetch scratch
          | none => .loading m groups fetch scratch
      else .loading m groups fetch scratch
    | .manifest _ => .loading m groups fetch scratch
  | .complete a => .complete a

/-- Modelled from the spec: `chunks_to_download` exposes the current
outstanding set for the transport collaborator. -/
def chunks_to_download (s : DownloadState) : Finset Nat :=
  match s with
  | .loading _ _ fetch _ => fetch
  | _ => ∅

/-- Feed a list of `(id, payload)` deliveries through the state machine. -/
def runSync (cfg : SyncConf) (cov : CoverageSource) (s : DownloadState)
    (ds : List (Nat × Payload)) : DownloadState :=
  ds.foldl (fun st d => add_chunk cfg cov st d.1 d.2) s

/-- The honest payload for a chunk id: the manifest-recorded bytes of the
chunk, or the concatenation of the member files' chunk bytes for a group. -/
def correctPayload (C : Checkpoint) (m : Manifest) (groups : List (Nat × List Nat))
    (id : Nat) : Payload :=
  match groups.find? (fun g => g.1 == id) with
  | some g => .bytes ((g.2.map (fun j => ciBytes C (m.chunk_table.getD j default))).flatten)
  | none => .bytes (ciBytes C (m.chunk_table.getD (id - 1) default))

/-- Deliver the honest payload for every currently outstanding chunk id, in
ascending id order. -/
def deliver_all (cfg : SyncConf) (cov : CoverageSource) (C : Checkpoint)
    (s : DownloadState) : DownloadState :=
  match s with
  | .loading m groups fetch _ =>
    runSync cfg cov s (((fetch.sort (· ≤ ·))).map (fun id => (id, correctPayload C m groups id)))
  | s => s

/-- Every advertised chunk id of a sync with its honest payload: the
transfer id of each chunk-table position, then every file-group id. -/
def fullDeliveries (C : Checkpoint) (m : Manifest) (groups : List (Nat × List Nat)) :
    List (Nat × Payload) :=
  (List.range m.chunk_table.length).map
    (fun j => (j + 1, correctPayload C m groups (j + 1))) ++
  groups.map (fun g => (g.1, correctPayload C m groups g.1))

/-- On-disk cache directories, keyed by the height that names them. -/
abbrev Dirs := List (Nat × Checkpoint)

def dirLookup (ds : Dirs) (h : Nat) : Option Checkpoint :=
  (ds.find? (fun d => d.1 == h)).map (fun d => d.2)

def dirErase (ds : Dirs) (h : Nat) : Dirs := ds.filter (fun d => !(d.1 == h))

def dirInsert (ds : Dirs) (h : Nat) (fs : Checkpoint) : Dirs := (h, fs) :: dirErase ds h

/-- Modelled from the spec: the single-slot cross-attempt cache together
with the cache directories it owns on disk. -/
structure CacheState where
  entry : Option CacheEntry
  dirs : Dirs
  deriving DecidableEq

/-- Modelled from the spec: `get()` is read-only and returns the current
entry. -/
def cacheGet (c : CacheState) : Option CacheEntry := c.entry

/-- Drop the current entry and delete its cache directory. -/
def cacheInvalidate (c : CacheState) : CacheState :=
  match c.entry with
  | some e => ⟨none, dirErase c.dirs e.height⟩
  | none => c

/-- Modelled from the spec: the admission part of `put` once monotonicity has
been decided: the old entry is dropped first; if the target directory named
by the incoming height still exists non-empty the offer is refused (the
ambiguous directory is removed and nothing is cached), otherwise the
scratchpad is moved into the cache directory and the entry replaced.  The
returned flag tells the caller whether its scratchpad was taken over; a
refused caller deletes its own data. -/
def cachePutFresh (c : CacheState) (h : Nat) (m : Manifest) (missing : Finset Nat)
    (scratchFiles : Checkpoint) : CacheState × Bool :=
  match dirLookup c.dirs h with
  | some fs =>
    if fs.isEmpty then
      (⟨some ⟨h, m, missing, scratchFiles⟩, dirInsert c.dirs h scratchFiles⟩, true)
    else (⟨c.entry, dirErase c.dirs h⟩, false)
  | none => (⟨some ⟨h, m, missing, scratchFiles⟩, dirInsert c.dirs h scratchFiles⟩, true)

/-- Modelled from the spec: `put(height, manifest, missing_chunks,
scratchpad)` accepts and replaces the current entry when the incoming height
is at least the cached height and rejects outright otherwise. -/
def cachePut (c : CacheState) (h : Nat) (m : Manifest) (missing : Finset Nat)
    (scratchFiles : Checkpoint) : CacheState × Bool :=
  match c.entry with
  | some e =>
    if h < e.height then (c, false)
    else cachePutFresh (cacheInvalidate c) h m missing scratchFiles
  | none => cachePutFresh c h m missing scratchFiles

/-- Modelled from the spec: a `Complete` notification at height `h` clears
the cache iff the cached height is at most `h`; it never inserts anything. -/
def cacheComplete (c : CacheState) (h : Nat) : CacheState :=
  match c.entry with
  | some e => if e.height ≤ h then cacheInvalidate c else c
  | none => c

/-- Translate an outstanding set of transfer chunk ids into manifest
chunk-table indices: every id is shifted down by one, and every file-group id
is replaced by the chunk indices of its member files. -/
def ungroup_fetch_chunks (fetch_chunks : Finset Nat) (file_groups : List (Nat × List Nat)) :
    Finset Nat :=
  file_groups.foldl
    (fun acc g =>
      if g.1 ∈ fetch_chunks then (acc.erase (g.1 - 1)) ∪ g.2.toFinset else acc)
    (fetch_chunks.image (fun i => i - 1))

/-- Modelled from the spec: teardown of a download at height `h`.  `Blank`
touches nothing; `Loading` offers `(height, manifest, ungrouped missing
chunks, scratchpad)` to the cache; `Complete` only notifies the cache of the
completed height.  The flag tells whether the scratchpad was moved into the
cache (otherwise the caller deletes it). -/
def teardown (c : CacheState) (h : Nat) (s : DownloadState) : CacheState × Bool :=
  match s with
  | .blank => (c, false)
  | .loading m groups fetch scratch =>
    cachePut c h m (ungroup_fetch_chunks fetch groups) (zipPaths m scratch)
  | .complete _ => (cacheComplete c h, false)

theorem dirLookup_erase_ne {ds : Dirs} {h h' : Nat} (hne : h ≠ h') :
    dirLookup (dirErase ds h') h = dirLookup ds h := by
  induction ds with
  | nil => rfl
  | cons d ds ih =>
    by_cases hd : d.1 = h'
    · have h1 : dirErase (d :: ds) h' = dirErase ds h' := by
        simp [dirErase, List.filter_cons, hd]
      have h2 : dirLookup (d :: ds) h = dirLookup ds h := by
        unfold dirLookup
        rw [List.find?_cons_of_neg _ (by simp [hd]; omega)]
      rw [h1, h2]
      exact ih
    · have h1 : dirErase (d :: ds) h' = d :: dirErase ds h' := by
        simp [dirErase, List.filter_cons, hd]
      rw [h1]
      by_cases hdh : d.1 = h
      · unfold dirLookup
        rw [List.find?_cons_of_pos _ (by simp [hdh]), List.find?_cons_of_pos _ (by simp [hdh])]
      · unfold dirLookup
        rw [List.find?_cons_of_neg _ (by simp [hdh]), List.find?_cons_of_neg _ (by simp [hdh])]
        exact ih

/-- C9: the priority function fetches exactly the advert matching the desired
target, drops adverts below the target height or with a wrong hash at the
target height, and stashes adverts above the target height. -/
theorem priority_fn_respects_target (tH tHash aH aHash : Nat) :
    (priority_fn tH tHash aH aHash = .Fetch ↔ (aH = tH ∧ aHash = tHash)) ∧
    (aH < tH ∨ (aH = tH ∧ aHash ≠ tHash) → priority_fn tH tHash aH aHash = .Drop) ∧
    (tH < aH → priority_fn tH tHash aH aHash = .Stash) := by
  rcases Nat.lt_trichotomy aH tH with hc | hc | hc
  · have hp : priority_fn tH tHash aH aHash = .Drop := by simp [priority_fn, hc]
    refine ⟨⟨fun h => ?_, fun h => ?_⟩, fun _ => hp, fun h => ?_⟩
    · rw [hp] at h; exact absurd h (by decide)
    · omega
    · omega
  · subst hc
    by_cases hh : aHash = tHash
    · have hp : priority_fn aH tHash aH aHash = .Fetch := by simp [priority_fn, hh]
      refine ⟨⟨fun _ => ⟨rfl, hh⟩, fun _ => hp⟩, fun h => ?_, fun h => ?_⟩
      · rcases h with h | ⟨_, h2⟩
        · omega
        · exact absurd hh h2
      · omega
    · have hp : priority_fn aH tHash aH aHash = .Drop := by simp [priority_fn, hh]
      refine ⟨⟨fun h => ?_, fun h => ?_⟩, fun _ => hp, fun h => ?_⟩
      · rw [hp] at h; exact absurd h (by decide)
      · exact absurd h.2 hh
      · omega
  · have hn : ¬ aH < tH := by omega
    have hp : priority_fn tH tHash aH aHash = .Stash := by simp [priority_fn, hn, hc]
    refine ⟨⟨fun h => ?_, fun h => ?_⟩, fun h => ?_, fun _ => hp⟩
    · rw [hp] at h; exact absurd h (by decide)
    · omega
    · rcases h with h | ⟨h1, _⟩
      · omega
      · omega

/-- C9 witness. -/
theorem priority_fn_respects_target_w :
    priority_fn 3 5 3 5 = .Fetch ∧ priority_fn 3 5 2 5 = .Drop ∧
    priority_fn 3 5 3 7 = .Drop ∧ priority_fn 3 5 4 5 = .Stash :=
  ⟨(priority_fn_respects_target 3 5 3 5).1.mpr ⟨rfl, rfl⟩,
   (priority_fn_respects_target 3 5 2 5).2.1 (Or.inl (by omega)),
   (priority_fn_respects_target 3 5 3 7).2.1 (Or.inr ⟨rfl, by omega⟩),
   (priority_fn_respects_target 3 5 4 5).2.2 (by omega)⟩

/-- C5: offering a torn-down `Loading` download at height `h2` to a cache
holding an entry at height `h1` replaces the entry — with the new attempt's
height, manifest, ungrouped missing chunks and scratchpad files moved into
the height-named cache directory — iff `h1 ≤ h2`; for `h2 < h1` the offer is
rejected, `get()` still returns the old entry and the scratchpad is not taken
over (the caller deletes it). -/
theorem cache_put_monotonic (c : CacheState) (e : CacheEntry) (h2 : Nat) (m : Manifest)
    (groups : List (Nat × List Nat)) (fetch : Finset Nat) (scratch : List Bytes)
    (hce : c.entry = some e) :
    (h2 < e.height →
      teardown c h2 (.loading m groups fetch scratch) = (c, false) ∧
      cacheGet (teardown c h2 (.loading m groups fetch scratch)).1 = some e) ∧
    (e.height ≤ h2 → dirLookup (dirErase c.dirs e.height) h2 = none →
      teardown c h2 (.loading m groups fetch scratch) =
        (⟨some ⟨h2, m, ungroup_fetch_chunks fetch groups, zipPaths m scratch⟩,
          dirInsert (dirErase c.dirs e.height) h2 (zipPaths m scratch)⟩, true)) := by
  constructor
  · intro hlt
    have : teardown c h2 (.loading m groups fetch scratch) = (c, false) := by
      simp [teardown, cachePut, hce, hlt]
    exact ⟨this, by rw [this]; exact hce⟩
  · intro hge hdir
    simp [teardown, cachePut, hce, Nat.not_lt_of_le hge, cacheInvalidate, cachePutFresh, hdir]

/-- C5 witness. -/
theorem cache_put_monotonic_w :
    (teardown ⟨some ⟨5, ⟨1, [], []⟩, {0}, [("a", [1])]⟩, [(5, [("a", [1])])]⟩ 4
        (.loading ⟨2, [], []⟩ [] {1} []) =
      (⟨some ⟨5, ⟨1, [], []⟩, {0}, [("a", [1])]⟩, [(5, [("a", [1])])]⟩, false)) ∧
    (teardown ⟨some ⟨5, ⟨1, [], []⟩, {0}, [("a", [1])]⟩, [(5, [("a", [1])])]⟩ 6
        (.loading ⟨2, [], []⟩ [] {1} []) =
      (⟨some ⟨6, ⟨2, [], []⟩, ungroup_fetch_chunks {1} [], zipPaths ⟨2, [], []⟩ []⟩,
        dirInsert (dirErase [(5, [("a", [1])])] 5) 6 (zipPaths ⟨2, [], []⟩ [])⟩, true)) :=
  ⟨((cache_put_monotonic _ _ 4 _ [] {1} [] rfl).1 (by decide)).1,
   (cache_put_monotonic _ _ 6 _ [] {1} [] rfl).2 (by decide) (by decide)⟩

/-- C6: teardown of a `Complete` download at height `h` clears the cache
entry iff the cached height is at most `h`, and never inserts an entry into
an empty cache. -/
theorem cache_complete_invalidation (c : CacheState) (h : Nat) (a : Artifact) :
    (∀ e, c.entry = some e →
      cacheGet (teardown c h (.complete a)).1 = if e.height ≤ h then none else some e) ∧
    (c.entry = none → cacheGet (teardown c h (.complete a)).1 = none) := by
  constructor
  · intro e hce
    by_cases hh : e.height ≤ h
    · simp [teardown, cacheComplete, hce, hh, cacheInvalidate, cacheGet]
    · simp [teardown, cacheComplete, hce, hh, cacheGet]
  · intro hce
    simp [teardown, cacheComplete, hce, cacheGet]

/-- C6 witness. -/
theorem cache_complete_invalidation_w :
    cacheGet (teardown ⟨some ⟨5, ⟨1, [], []⟩, {0}, []⟩, []⟩ 5
      (.complete ⟨0, 0, [], ⟨0, [], []⟩, []⟩)).1 = none ∧
    cacheGet (teardown ⟨some ⟨5, ⟨1, [], []⟩, {0}, []⟩, []⟩ 4
      (.complete ⟨0, 0, [], ⟨0, [], []⟩, []⟩)).1 = some ⟨5, ⟨1, [], []⟩, {0}, []⟩ ∧
    cacheGet (teardown ⟨none, []⟩ 7 (.complete ⟨0, 0, [], ⟨0, [], []⟩, []⟩)).1 = none := by
  refine ⟨?_, ?_, ?_⟩
  · have := (cache_complete_invalidation ⟨some ⟨5, ⟨1, [], []⟩, {0}, []⟩, []⟩ 5
      ⟨0, 0, [], ⟨0, [], []⟩, []⟩).1 ⟨5, ⟨1, [], []⟩, {0}, []⟩ rfl
    simpa using this
  · have := (cache_complete_invalidation ⟨some ⟨5, ⟨1, [], []⟩, {0}, []⟩, []⟩ 4
      ⟨0, 0, [], ⟨0, [], []⟩, []⟩).1 ⟨5, ⟨1, [], []⟩, {0}, []⟩ rfl
    simpa using this
  · exact (cache_complete_invalidation ⟨none, []⟩ 7 ⟨0, 0, [], ⟨0, [], []⟩, []⟩).2 rfl

/-- C7: when the target cache directory for the offered height already exists
and is non-empty, the cache refuses the entry: the offer returns with the
scratchpad not taken over (the attempt forgoes caching, no fatal error) and
`get()` returns nothing afterwards. -/
theorem cache_collision_refuses (c : CacheState) (h : Nat) (m : Manifest)
    (missing : Finset Nat) (scratchFiles : Checkpoint) (fs : Checkpoint)
    (hdir : dirLookup c.dirs h = some fs) (hfs : fs ≠ [])
    (hent : ∀ e, c.entry = some e → e.height ≤ h ∧ e.height ≠ h) :
    (cachePut c h m missing scratchFiles).2 = false ∧
    cacheGet (cachePut c h m missing scratchFiles).1 = none := by
  have hfs' : fs.isEmpty = false := by
    cases fs with
    | nil => exact absurd rfl hfs
    | cons x xs => rfl
  cases hce : c.entry with
  | none =>
    simp [cachePut, hce, cachePutFresh, hdir, hfs', cacheGet]
  | some e =>
    obtain ⟨hle, hne⟩ := hent e hce
    have hdir' : dirLookup (dirErase c.dirs e.height) h = some fs := by
      rw [dirLookup_erase_ne (fun hh => hne hh.symm)]
      exact hdir
    simp [cachePut, hce, Nat.not_lt_of_le hle, cacheInvalidate, cachePutFresh, hdir', hfs',
      cacheGet]

/-- C7 witness. -/
theorem cache_collision_refuses_w :
    (cachePut ⟨none, [(5, [("junk", [0])])]⟩ 5 ⟨1, [], []⟩ {0} [("a", [1])]).2 = false ∧
    cacheGet (cachePut ⟨none, [(5, [("junk", [0])])]⟩ 5 ⟨1, [], []⟩ {0} [("a", [1])]).1 =
      none :=
  cache_collision_refuses ⟨none, [(5, [("junk", [0])])]⟩ 5 ⟨1, [], []⟩ {0} [("a", [1])]
    [("junk", [0])] (by decide) (by decide) (fun e he => by simp at he)

theorem ungroup_fold_mem (fetch : Finset Nat) :
    ∀ (gs : List (Nat × List Nat)) (acc : Finset Nat),
      (∀ g ∈ gs, FILE_GROUP_CHUNK_ID_OFFSET ≤ g.1 ∧
        ∀ j ∈ g.2, j + 1 < FILE_GROUP_CHUNK_ID_OFFSET) →
      ∀ j,
        (j ∈ gs.foldl
          (fun acc g => if g.1 ∈ fetch then (acc.erase (g.1 - 1)) ∪ g.2.toFinset else acc)
          acc ↔
        (j ∈ acc ∧ ∀ g ∈ gs, g.1 ∈ fetch → j ≠ g.1 - 1) ∨
          (∃ g ∈ gs, g.1 ∈ fetch ∧ j ∈ g.2)) := by
  intro gs
  induction gs with
  | nil => intro acc _ j; simp
  | cons g gs ih =>
    intro acc hg j
    have hgh := hg g (by simp)
    have hgt : ∀ g' ∈ gs, FILE_GROUP_CHUNK_ID_OFFSET ≤ g'.1 ∧
        ∀ j ∈ g'.2, j + 1 < FILE_GROUP_CHUNK_ID_OFFSET :=
      fun g' hg' => hg g' (by simp [hg'])
    by_cases hgf : g.1 ∈ fetch
    · rw [List.foldl_cons, if_pos hgf, ih _ hgt]
      have hacc : j ∈ (acc.erase (g.1 - 1)) ∪ g.2.toFinset ↔
          (j ∈ acc ∧ j ≠ g.1 - 1) ∨ j ∈ g.2 := by
        simp [Finset.mem_union, Finset.mem_erase, List.mem_toFinset, and_comm]
      rw [hacc]
      constructor
      · rintro (⟨(⟨hja, hjne⟩ | hjg), hrest⟩ | ⟨g', hg', hmem⟩)
        · exact Or.inl ⟨hja, by
            intro g'' hg'' hf''
            rcases List.mem_cons.mp hg'' with rfl | hh
            · exact hjne
            · exact hrest g'' hh hf''⟩
        · exact Or.inr ⟨g, by simp, hgf, hjg⟩
        · exact Or.inr ⟨g', by simp [hg'], hmem⟩
      · rintro (⟨hja, hall⟩ | ⟨g', hg', hf', hmem⟩)
        · exact Or.inl ⟨Or.inl ⟨hja, hall g (by simp) hgf⟩,
            fun g'' hg'' hf'' => hall g'' (by simp [hg'']) hf''⟩
        · rcases List.mem_cons.mp hg' with rfl | hh
          · refine Or.inl ⟨Or.inr hmem, ?_⟩
            intro g'' hg'' _
            have h1 := (hgh.2 j hmem)
            have h2 := (hgt g'' hg'').1
            omega
          · exact Or.inr ⟨g', hh, hf', hmem⟩
    · rw [List.foldl_cons, if_neg hgf, ih _ hgt]
      constructor
      · rintro (⟨hja, hrest⟩ | ⟨g', hg', hmem⟩)
        · exact Or.inl ⟨hja, by
            intro g'' hg'' hf''
            rcases List.mem_cons.mp hg'' with rfl | hh
            · exact absurd hf'' hgf
            · exact hrest g'' hh hf''⟩
        · exact Or.inr ⟨g', by simp [hg'], hmem⟩
      · rintro (⟨hja, hall⟩ | ⟨g', hg', hf', hmem⟩)
        · exact Or.inl ⟨hja, fun g'' hg'' hf'' => hall g'' (by simp [hg'']) hf''⟩
        · rcases List.mem_cons.mp hg' with rfl | hh
          · exact absurd hf' hgf
          · exact Or.inr ⟨g', hh, hf', hmem⟩

/-- C10: the missing chunks a torn-down `Loading` download stores in the
cache are manifest chunk-table indices, not transfer ids: the teardown offers
`ungroup_fetch_chunks`, in which every non-group outstanding id `i` is
recorded as `i - 1` and every outstanding file-group id is replaced by
exactly the chunk indices of its member files. -/
theorem cached_missing_are_ungrouped_indices (c : CacheState) (h : Nat) (m : Manifest)
    (groups : List (Nat × List Nat)) (fetch : Finset Nat) (scratch : List Bytes)
    (hg : ∀ g ∈ groups, FILE_GROUP_CHUNK_ID_OFFSET ≤ g.1 ∧
      ∀ j ∈ g.2, j + 1 < FILE_GROUP_CHUNK_ID_OFFSET)
    (hf : ∀ i ∈ fetch, 1 ≤ i) :
    teardown c h (.loading m groups fetch scratch) =
      cachePut c h m (ungroup_fetch_chunks fetch groups) (zipPaths m scratch) ∧
    ∀ j, j ∈ ungroup_fetch_chunks fetch groups ↔
      ((j + 1 ∈ fetch ∧ ∀ g ∈ groups, g.1 ≠ j + 1) ∨
        ∃ g ∈ groups, g.1 ∈ fetch ∧ j ∈ g.2) := by
  refine ⟨rfl, fun j => ?_⟩
  have hoff : 1 ≤ FILE_GROUP_CHUNK_ID_OFFSET := by
    rw [FILE_GROUP_CHUNK_ID_OFFSET]
    omega
  rw [ungroup_fetch_chunks, ungroup_fold_mem fetch groups _ hg j]
  have himg : j ∈ fetch.image (fun i => i - 1) ↔ j + 1 ∈ fetch := by
    rw [Finset.mem_image]
    constructor
    · rintro ⟨i, hi, rfl⟩
      have := hf i hi
      have : i - 1 + 1 = i := by omega
      rw [this]
      exact hi
    · intro hj
      exact ⟨j + 1, hj, by omega⟩
  rw [himg]
  constructor
  · rintro (⟨hj1, hall⟩ | he)
    · refine Or.inl ⟨hj1, fun g hgmem hgeq => ?_⟩
      have := hall g hgmem (hgeq ▸ hj1)
      have hge := (hg g hgmem).1
      omega
    · exact Or.inr he
  · rintro (⟨hj1, hall⟩ | he)
    · refine Or.inl ⟨hj1, fun g hgmem hgf => ?_⟩
      have hne := hall g hgmem
      have hge := (hg g hgmem).1
      omega
    · exact Or.inr he

/-- C10 witness. -/
theorem cached_missing_are_ungrouped_indices_w :
    (4 ∈ ungroup_fetch_chunks {5, FILE_GROUP_CHUNK_ID_OFFSET}
        [(FILE_GROUP_CHUNK_ID_OFFSET, [7, 8])] ↔
      ((5 ∈ ({5, FILE_GROUP_CHUNK_ID_OFFSET} : Finset Nat) ∧
        ∀ g ∈ [(FILE_GROUP_CHUNK_ID_OFFSET, [7, 8])], g.1 ≠ 5) ∨
        ∃ g ∈ [(FILE_GROUP_CHUNK_ID_OFFSET, [7, 8])],
          g.1 ∈ ({5, FILE_GROUP_CHUNK_ID_OFFSET} : Finset Nat) ∧ 4 ∈ g.2)) ∧
    (7 ∈ ungroup_fetch_chunks {5, FILE_GROUP_CHUNK_ID_OFFSET}
        [(FILE_GROUP_CHUNK_ID_OFFSET, [7, 8])] ↔
      ((8 ∈ ({5, FILE_GROUP_CHUNK_ID_OFFSET} : Finset Nat) ∧
        ∀ g ∈ [(FILE_GROUP_CHUNK_ID_OFFSET, [7, 8])], g.1 ≠ 8) ∨
        ∃ g ∈ [(FILE_GROUP_CHUNK_ID_OFFSET, [7, 8])],
          g.1 ∈ ({5, FILE_GROUP_CHUNK_ID_OFFSET} : Finset Nat) ∧ 7 ∈ g.2)) :=
  ⟨(cached_missing_are_ungrouped_indices ⟨none, []⟩ 0 ⟨0, [], []⟩ _ _ []
      (by rw [FILE_GROUP_CHUNK_ID_OFFSET]; decide) (by rw [FILE_GROUP_CHUNK_ID_OFFSET]; decide)).2 4,
   (cached_missing_are_ungrouped_indices ⟨none, []⟩ 0 ⟨0, [], []⟩ _ _ []
      (by rw [FILE_GROUP_CHUNK_ID_OFFSET]; decide) (by rw [FILE_GROUP_CHUNK_ID_OFFSET]; decide)).2 7⟩

theorem reuse_or_hash_eq (prev : Manifest) (S : Nat) (cleanList : List (String × Nat))
    (path : String) {b : Bytes} {k : Nat} {piece : Bytes}
    (hk : (splitChunks S b)[k]? = some piece)
    (h : (path, k) ∈ cleanList →
      lookupChunkHash prev path (k * S) = some (chunkHash ((splitChunks S b).getD k []))) :
    reuse_or_hash prev S cleanList path k piece = chunkHash piece := by
  unfold reuse_or_hash
  split_ifs with hc
  · rw [h hc]
    simp [List.getD_eq_getElem?_getD, hk]
  · rfl

theorem fileChunkHashesInc_eq (prev : Manifest) (S : Nat) (cleanList : List (String × Nat))
    (path : String) (b : Bytes)
    (h : ∀ k, (path, k) ∈ cleanList →
      lookupChunkHash prev path (k * S) = some (chunkHash ((splitChunks S b).getD k []))) :
    fileChunkHashesInc prev S cleanList path b = fileChunkHashes S b := by
  unfold fileChunkHashesInc fileChunkHashes
  apply List.ext_getElem?
  intro k
  rw [List.getElem?_map, List.getElem?_map, List.getElem?_enum]
  cases hk : (splitChunks S b)[k]? with
  | none => rfl
  | some piece => simp [reuse_or_hash_eq prev S cleanList path hk (h k)]

theorem fileChunksInc_eq (prev : Manifest) (S : Nat) (cleanList : List (String × Nat))
    (path : String) (f : Nat) (b : Bytes)
    (h : ∀ k, (path, k) ∈ cleanList →
      lookupChunkHash prev path (k * S) = some (chunkHash ((splitChunks S b).getD k []))) :
    fileChunksInc prev S cleanList path f b = fileChunks S f b := by
  unfold fileChunksInc fileChunks
  apply List.ext_getElem?
  intro k
  rw [List.getElem?_map, List.getElem?_map]
  cases hk : (splitChunks S b).enum[k]? with
  | none => rfl
  | some kc =>
    simp only [Option.map_some']
    have hkk : (splitChunks S b)[kc.1]? = some kc.2 := by
      rw [List.getElem?_enum] at hk
      cases hsp : (splitChunks S b)[k]? with
      | none => rw [hsp] at hk; simp at hk
      | some piece =>
        rw [hsp] at hk
        simp at hk
        subst hk
        exact hsp
    rw [reuse_or_hash_eq prev S cleanList path hkk (h kc.1)]

/-- C2: computing the manifest of a checkpoint incrementally — reusing the
previous manifest's hash for every chunk the producer's dirty tracking
reports clean — yields exactly the manifest computed from scratch, provided
the dirty tracking is truthful (every clean chunk's hash recorded in the
previous manifest is the hash of the chunk's current bytes); in particular
the from-scratch manifest validates against the incrementally computed root
hash. -/
theorem compute_manifest_incremental_eq (v S : Nat) (cp : Checkpoint) (prev : Manifest)
    (cleanList : List (String × Nat))
    (hclean : ∀ i, i < cp.length → ∀ k,
      ((cp.getD i ("", [])).1, k) ∈ cleanList →
      lookupChunkHash prev (cp.getD i ("", [])).1 (k * S) =
        some (chunkHash ((splitChunks S (cp.getD i ("", [])).2).getD k []))) :
    compute_manifest_incremental v S cp prev cleanList = compute_manifest v S cp ∧
    validate_manifest (compute_manifest v S cp)
      (manifestHash (compute_manifest_incremental v S cp prev cleanList)) = true := by
  have hmain : compute_manifest_incremental v S cp prev cleanList = compute_manifest v S cp := by
    unfold compute_manifest_incremental compute_manifest
    have hft : cp.map (fun pb => (⟨pb.1, pb.2.length,
          fileHashOf (fileChunkHashesInc prev S cleanList pb.1 pb.2)⟩ : FileInfo)) =
        cp.map (fun pb => ⟨pb.1, pb.2.length, fileHashOf (fileChunkHashes S pb.2)⟩) := by
      apply List.ext_getElem?
      intro i
      rw [List.getElem?_map, List.getElem?_map]
      cases hi : cp[i]? with
      | none => rfl
      | some pb =>
        have hlen : i < cp.length := by
          by_contra hno
          rw [List.getElem?_eq_none (by omega)] at hi
          cases hi
        have hgd : cp.getD i ("", []) = pb := by
          rw [List.getD_eq_getElem?_getD, hi]
          rfl
        simp only [Option.map_some']
        have := fileChunkHashesInc_eq prev S cleanList pb.1 pb.2
          (fun k hc => by
            have := hclean i hlen k (by rw [hgd]; exact hc)
            rw [hgd] at this
            exact this)
        rw [this]
    have hct : cp.enum.map (fun ipb =>
          fileChunksInc prev S cleanList ipb.2.1 ipb.1 ipb.2.2) =
        cp.enum.map (fun ipb => fileChunks S ipb.1 ipb.2.2) := by
      apply List.ext_getElem?
      intro i
      rw [List.getElem?_map, List.getElem?_map, List.getElem?_enum]
      cases hi : cp[i]? with
      | none => rfl
      | some pb =>
        have hlen : i < cp.length := by
          by_contra hno
          rw [List.getElem?_eq_none (by omega)] at hi
          cases hi
        have hgd : cp.getD i ("", []) = pb := by
          rw [List.getD_eq_getElem?_getD, hi]
          rfl
        simp only [Option.map_some']
        have := fileChunksInc_eq prev S cleanList pb.1 i pb.2
          (fun k hc => by
            have := hclean i hlen k (by rw [hgd]; exact hc)
            rw [hgd] at this
            exact this)
        rw [this]
    rw [hft, hct]
  refine ⟨hmain, ?_⟩
  rw [hmain, validate_manifest]
  simp

/-- C2 witness: one clean chunk reused from the previous manifest, one dirty
chunk rehashed. -/
theorem compute_manifest_incremental_eq_w :
    compute_manifest_incremental 1 2 [("a", [1, 2, 3])]
        (compute_manifest 1 2 [("a", [1, 2, 9])]) [("a", 0)] =
      compute_manifest 1 2 [("a", [1, 2, 3])] ∧
    validate_manifest (compute_manifest 1 2 [("a", [1, 2, 3])])
      (manifestHash (compute_manifest_incremental 1 2 [("a", [1, 2, 3])]
        (compute_manifest 1 2 [("a", [1, 2, 9])]) [("a", 0)])) = true :=
  compute_manifest_incremental_eq 1 2 [("a", [1, 2, 3])]
    (compute_manifest 1 2 [("a", [1, 2, 9])]) [("a", 0)]
    (by
      intro i hi k hk
      have hi0 : i = 0 := by simpa using hi
      subst hi0
      have hk0 : k = 0 := by simpa using hk
      subst hk0
      decide)

theorem flatten_splitChunksGo {S : Nat} (hS : S ≠ 0) :
    ∀ (fuel : Nat) (b : Bytes), b.length ≤ fuel → (splitChunksGo S fuel b).flatten = b := by
  intro fuel
  induction fuel with
  | zero =>
    intro b h
    cases b with
    | nil => rfl
    | cons x xs => simp at h
  | succ fuel ih =>
    intro b h
    cases b with
    | nil => rfl
    | cons x xs =>
      simp only [splitChunksGo, List.flatten_cons]
      rw [ih (List.drop S (x :: xs)) (by simp at h ⊢; omega)]
      exact List.take_append_drop S (x :: xs)

theorem flatten_splitChunks {S : Nat} (hS : 0 < S) (b : Bytes) :
    (splitChunks S b).flatten = b := by
  unfold splitChunks
  rw [if_neg (by omega)]
  exact flatten_splitChunksGo (by omega) b.length b (Nat.le_refl _)

theorem splitChunks_inj {S : Nat} (hS : 0 < S) {b₁ b₂ : Bytes}
    (h : splitChunks S b₁ = splitChunks S b₂) : b₁ = b₂ := by
  have := congrArg List.flatten h
  rwa [flatten_splitChunks hS, flatten_splitChunks hS] at this

theorem fileChunkHashes_inj {S : Nat} (hS : 0 < S) {b₁ b₂ : Bytes}
    (h : fileChunkHashes S b₁ = fileChunkHashes S b₂) : b₁ = b₂ := by
  apply splitChunks_inj hS
  have hinj : Function.Injective chunkHash := fun _ _ hh => chunkHash_inj hh
  exact List.map_injective_iff.mpr hinj h

theorem compute_manifest_file_table_getElem? (v S : Nat) (cp : Checkpoint) (f : Nat) :
    (compute_manifest v S cp).file_table[f]? =
      cp[f]?.map (fun pb => ⟨pb.1, pb.2.length, fileHashOf (fileChunkHashes S pb.2)⟩) := by
  simp [compute_manifest]

theorem compute_manifest_file_table_length (v S : Nat) (cp : Checkpoint) :
    (compute_manifest v S cp).file_table.length = cp.length := by
  simp [compute_manifest]

theorem contentOf_getElem? {cp : Checkpoint} {f : Nat} {pb : String × Bytes}
    (h : cp[f]? = some pb) : contentOf cp f = pb.2 := by
  rw [contentOf, List.getD_eq_getElem?_getD, h]
  rfl

theorem fileSize_eq_length {v S : Nat} {cp : Checkpoint} {f : Nat} (hf : f < cp.length) :
    fileSize (compute_manifest v S cp) f = (contentOf cp f).length := by
  cases hpb : cp[f]? with
  | none =>
    rw [List.getElem?_eq_none_iff] at hpb
    omega
  | some pb =>
    rw [fileSize, List.getD_eq_getElem?_getD, compute_manifest_file_table_getElem?, hpb,
      contentOf_getElem? hpb]
    rfl

/-- Membership form of the chunk-table well-formedness facts. -/
theorem chunk_table_mem {v S : Nat} (hS : 0 < S) {cp : Checkpoint} {ci : ChunkInfo}
    (hci : ci ∈ (compute_manifest v S cp).chunk_table) :
    ci.file_index < cp.length ∧
    ci.offset + ci.size_bytes ≤ (contentOf cp ci.file_index).length ∧
    0 < ci.size_bytes ∧
    ci.size_bytes = (ciBytes cp ci).length ∧
    ci.chunk_hash = chunkHash (ciBytes cp ci) := by
  simp only [compute_manifest, List.mem_flatten, List.mem_map] at hci
  obtain ⟨L, ⟨ipb, hipb, rfl⟩, hciL⟩ := hci
  rw [List.mem_enum_iff_get?] at hipb
  rw [List.get?_eq_getElem?] at hipb
  simp only [fileChunks, List.mem_map] at hciL
  obtain ⟨kc, hkc, rfl⟩ := hciL
  rw [List.mem_enum_iff_get?, List.get?_eq_getElem?] at hkc
  have hfl : ipb.1 < cp.length := by
    by_contra hno
    rw [List.getElem?_eq_none (by omega)] at hipb
    cases hipb
  have hcont : contentOf cp ipb.1 = ipb.2.2 := contentOf_getElem? hipb
  have hsp := splitChunks_getElem? hS kc.1 ipb.2.2 kc.2 hkc
  have hlen := length_readRange_chunk hS hkc
  have hself := readRange_self_chunk hS hkc
  have hkS : kc.1 * S < ipb.2.2.length := by
    have := (splitChunks_isSome_iff hS kc.1 ipb.2.2).mp (by rw [hkc]; rfl)
    exact this
  refine ⟨hfl, ?_, ?_, ?_, ?_⟩
  · simp only [hcont]
    omega
  · simp only []
    cases hp : kc.2 with
    | nil => exact absurd hp hsp.2
    | cons y ys => simp [hp]
  · simp only [ciBytes, hcont]
    rw [hself]
  · simp only [ciBytes, hcont]
    rw [hself]

/-- Every chunk of the split of a file appears in the chunk table. -/
theorem chunk_table_of_split {v S : Nat} (hS : 0 < S) {cp : Checkpoint} {f k : Nat}
    {piece : Bytes} (hf : f < cp.length)
    (hk : (splitChunks S (contentOf cp f))[k]? = some piece) :
    (⟨f, k * S, piece.length, chunkHash piece⟩ : ChunkInfo) ∈
      (compute_manifest v S cp).chunk_table := by
  cases hpb : cp[f]? with
  | none =>
    rw [List.getElem?_eq_none_iff] at hpb
    omega
  | some pb =>
    have hcont : contentOf cp f = pb.2 := contentOf_getElem? hpb
    simp only [compute_manifest, List.mem_flatten]
    refine ⟨fileChunks S f pb.2, ?_, ?_⟩
    · rw [List.mem_map]
      exact ⟨(f, pb), by rw [List.mem_enum_iff_get?, List.get?_eq_getElem?]; exact hpb, rfl⟩
    · rw [fileChunks, List.mem_map]
      refine ⟨(k, piece), ?_, rfl⟩
      rw [List.mem_enum_iff_get?, List.get?_eq_getElem?]
      rw [← hcont]
      exact hk

/-- If every chunk range of a file agrees with the checkpoint and the length
matches, the file is byte-identical to the checkpoint's. -/
theorem scratch_file_eq {v S : Nat} (hS : 0 < S) {cp : Checkpoint} {f : Nat} {l : Bytes}
    (hf : f < cp.length) (hlen : l.length = (contentOf cp f).length)
    (hok : ∀ ci ∈ (compute_manifest v S cp).chunk_table, ci.file_index = f →
      readRange l ci.offset ci.size_bytes = ciBytes cp ci) :
    l = contentOf cp f := by
  apply eq_of_chunk_ranges_eq hS hlen
  intro k piece hk
  have hmem := chunk_table_of_split (v := v) hS hf hk
  have := hok _ hmem rfl
  simpa [ciBytes] using this

theorem greedyPackGo_nil (S : Nat) (cur : List (Nat × Nat)) (sz : Nat) :
    greedyPackGo S cur sz [] = if cur.isEmpty then [] else [cur] := rfl

theorem greedyPackGo_cons (S : Nat) (cur : List (Nat × Nat)) (sz : Nat) (f : Nat × Nat)
    (rest : List (Nat × Nat)) :
    greedyPackGo S cur sz (f :: rest) =
      if cur.isEmpty || sz + f.2 ≤ S then greedyPackGo S (cur ++ [f]) (sz + f.2) rest
      else cur :: greedyPackGo S [f] f.2 rest := rfl

theorem greedyPackGo_flatten (S : Nat) :
    ∀ (files cur : List (Nat × Nat)) (sz : Nat),
      (greedyPackGo S cur sz files).flatten = cur ++ files := by
  intro files
  induction files with
  | nil =>
    intro cur sz
    rw [greedyPackGo_nil]
    cases cur <;> simp
  | cons f rest ih =>
    intro cur sz
    rw [greedyPackGo_cons]
    split_ifs with hc
    · rw [ih]
      simp
    · rw [List.flatten_cons, ih]
      simp

theorem greedyPack_flatten (S : Nat) (files : List (Nat × Nat)) :
    (greedyPack S files).flatten = files := by
  rw [greedyPack, greedyPackGo_flatten]
  rfl

theorem greedyPackGo_nonempty (S : Nat) :
    ∀ (files cur : List (Nat × Nat)) (sz : Nat),
      ∀ p ∈ greedyPackGo S cur sz files, p ≠ [] := by
  intro files
  induction files with
  | nil =>
    intro cur sz p hp
    rw [greedyPackGo_nil] at hp
    split_ifs at hp with hc
    · cases hp
    · simp only [List.mem_singleton] at hp
      subst hp
      intro hno
      rw [hno] at hc
      exact hc rfl
  | cons f rest ih =>
    intro cur sz p hp
    rw [greedyPackGo_cons] at hp
    split_ifs at hp with hc
    · exact ih _ _ p hp
    · rcases List.mem_cons.mp hp with rfl | hp'
      · intro hno
        rw [hno] at hc
        simp at hc
      · exact ih _ _ p hp'

theorem length_le_sum_of_nonempty :
    ∀ (L : List (List (Nat × Nat))), (∀ p ∈ L, p ≠ []) → L.length ≤ L.flatten.length := by
  intro L
  induction L with
  | nil => intro _; simp
  | cons p L ih =>
    intro h
    simp only [List.flatten_cons, List.length_append, List.length_cons]
    have hp := h p (by simp)
    have hlen : 1 ≤ p.length := by
      cases p with
      | nil => exact absurd rfl hp
      | cons a l => simp
    have := ih (fun q hq => h q (by simp [hq]))
    omega

theorem greedyPack_count (S : Nat) (files : List (Nat × Nat)) :
    (greedyPack S files).length ≤ files.length := by
  have h1 := length_le_sum_of_nonempty (greedyPack S files)
    (fun p hp => greedyPackGo_nonempty S files [] 0 p hp)
  rw [greedyPack_flatten] at h1
  exact h1

theorem greedyPackGo_sizes (S : Nat) :
    ∀ (files cur : List (Nat × Nat)) (sz : Nat),
      sz = (cur.map (fun f => f.2)).sum → sz ≤ S → (∀ f ∈ files, f.2 ≤ S) →
      ∀ p ∈ greedyPackGo S cur sz files, (p.map (fun f => f.2)).sum ≤ S := by
  intro files
  induction files with
  | nil =>
    intro cur sz hsum hle _ p hp
    rw [greedyPackGo_nil] at hp
    split_ifs at hp with hc
    · cases hp
    · simp only [List.mem_singleton] at hp
      subst hp
      omega
  | cons f rest ih =>
    intro cur sz hsum hle hall p hp
    rw [greedyPackGo_cons] at hp
    split_ifs at hp with hc
    · by_cases hce : cur.isEmpty
      · have hcur : cur = [] := by
          cases cur with
          | nil => rfl
          | cons a l => simp at hce
        subst hcur
        simp only [List.map_nil, List.sum_nil] at hsum
        subst hsum
        simp only [List.nil_append] at hp
        rw [show (0 + f.2) = f.2 by omega] at hp
        exact ih [f] f.2 (by simp) (by simpa using hall f (by simp))
          (fun f' hf' => hall f' (by simp [hf'])) p hp
      · have hfit : sz + f.2 ≤ S := by
          rcases Bool.or_eq_true _ _ |>.mp hc with h1 | h2
          · exact absurd h1 hce
          · simpa using h2
        exact ih (cur ++ [f]) (sz + f.2) (by simp [hsum]) hfit
          (fun f' hf' => hall f' (by simp [hf'])) p hp
    · rcases List.mem_cons.mp hp with rfl | hp'
      · omega
      · exact ih [f] f.2 (by simp) (by simpa using hall f (by simp))
          (fun f' hf' => hall f' (by simp [hf'])) p hp'

/-- Eligible files of the grouping plan: index, declared size. -/
def eligibleFiles (T : Nat) (m : Manifest) : List (Nat × Nat) :=
  (m.file_table.enum.filter (fun fe => fe.2.size_bytes < T)).map
    (fun fe => (fe.1, fe.2.size_bytes))

theorem build_file_group_chunks_eq (T S : Nat) (m : Manifest) :
    build_file_group_chunks T S m =
      (greedyPack S (eligibleFiles T m)).enum.map
        (fun kp => (FILE_GROUP_CHUNK_ID_OFFSET + kp.1,
          (kp.2.map (fun fs => chunkIndicesOfFile m fs.1)).flatten)) := rfl

theorem build_keys_ge (T S : Nat) (m : Manifest) :
    ∀ g ∈ build_file_group_chunks T S m, FILE_GROUP_CHUNK_ID_OFFSET ≤ g.1 := by
  intro g hg
  rw [build_file_group_chunks_eq, List.mem_map] at hg
  obtain ⟨kp, _, rfl⟩ := hg
  exact Nat.le_add_right _ _

theorem build_keys_nodup (T S : Nat) (m : Manifest) :
    ((build_file_group_chunks T S m).map (fun g => g.1)).Nodup := by
  rw [build_file_group_chunks_eq, List.map_map]
  have : ((greedyPack S (eligibleFiles T m)).enum.map
      ((fun g => g.1) ∘ (fun kp : Nat × List (Nat × Nat) =>
        (FILE_GROUP_CHUNK_ID_OFFSET + kp.1,
          (kp.2.map (fun fs => chunkIndicesOfFile m fs.1)).flatten)))) =
      ((greedyPack S (eligibleFiles T m)).enum.map
        (fun kp => FILE_GROUP_CHUNK_ID_OFFSET + kp.1)) := by
    apply List.map_congr_left
    intro kp _
    rfl
  rw [this]
  have henum : ((greedyPack S (eligibleFiles T m)).enum.map
      (fun kp => FILE_GROUP_CHUNK_ID_OFFSET + kp.1)) =
      ((greedyPack S (eligibleFiles T m)).enum.map Prod.fst).map
        (fun k => FILE_GROUP_CHUNK_ID_OFFSET + k) := by
    rw [List.map_map]
    rfl
  rw [henum, List.enum_map_fst]
  exact (List.nodup_range _).map (fun a b hab => by omega)

theorem find?_of_keys_nodup {α : Type} :
    ∀ (l : List (Nat × α)), (l.map (fun g => g.1)).Nodup →
      ∀ g ∈ l, l.find? (fun g' => g'.1 == g.1) = some g := by
  intro l
  induction l with
  | nil => intro _ g hg; cases hg
  | cons a l ih =>
    intro hnd g hg
    simp only [List.map_cons, List.nodup_cons] at hnd
    rcases List.mem_cons.mp hg with rfl | hgl
    · rw [List.find?_cons_of_pos _ (by simp)]
    · rw [List.find?_cons_of_neg _ ?_]
      · exact ih hnd.2 g hgl
      · simp only [beq_iff_eq]
        intro heq
        exact hnd.1 (heq ▸ List.mem_map_of_mem (fun g => g.1) hgl)

theorem mem_chunkIndicesOfFile {m : Manifest} {f j : Nat} :
    j ∈ chunkIndicesOfFile m f ↔ ∃ ci, m.chunk_table[j]? = some ci ∧ ci.file_index = f := by
  rw [chunkIndicesOfFile, List.mem_map]
  constructor
  · rintro ⟨jc, hjc, rfl⟩
    rw [List.mem_filter] at hjc
    obtain ⟨hmem, hfi⟩ := hjc
    rw [List.mem_enum_iff_get?, List.get?_eq_getElem?] at hmem
    exact ⟨jc.2, hmem, by simpa using hfi⟩
  · rintro ⟨ci, hci, rfl⟩
    refine ⟨(j, ci), ?_, rfl⟩
    rw [List.mem_filter]
    refine ⟨?_, by simp⟩
    rw [List.mem_enum_iff_get?, List.get?_eq_getElem?]
    exact hci

theorem mem_eligibleFiles {T : Nat} {m : Manifest} {fs : Nat × Nat} :
    fs ∈ eligibleFiles T m ↔
      ∃ fi, m.file_table[fs.1]? = some fi ∧ fi.size_bytes = fs.2 ∧ fs.2 < T := by
  rw [eligibleFiles, List.mem_map]
  constructor
  · rintro ⟨fe, hfe, rfl⟩
    rw [List.mem_filter] at hfe
    obtain ⟨hmem, hsz⟩ := hfe
    rw [List.mem_enum_iff_get?, List.get?_eq_getElem?] at hmem
    exact ⟨fe.2, hmem, rfl, by simpa using hsz⟩
  · rintro ⟨fi, hfi, hsz, hlt⟩
    refine ⟨(fs.1, fi), ?_, by simp [hsz]⟩
    rw [List.mem_filter]
    refine ⟨?_, by simp [hsz]; omega⟩
    rw [List.mem_enum_iff_get?, List.get?_eq_getElem?]
    exact hfi

/-- The member structure of a group: each member belongs to an eligible
file whose chunk indices are wholly contained in the group. -/
theorem build_member_block {T S : Nat} {m : Manifest} {g : Nat × List Nat}
    (hg : g ∈ build_file_group_chunks T S m) {j : Nat} (hj : j ∈ g.2) :
    ∃ fsz : Nat × Nat, fsz ∈ eligibleFiles T m ∧ j ∈ chunkIndicesOfFile m fsz.1 ∧
      ∀ j' ∈ chunkIndicesOfFile m fsz.1, j' ∈ g.2 := by
  rw [build_file_group_chunks_eq, List.mem_map] at hg
  obtain ⟨kp, hkp, rfl⟩ := hg
  simp only [List.mem_flatten, List.mem_map] at hj
  obtain ⟨L, ⟨fs, hfs, rfl⟩, hjL⟩ := hj
  refine ⟨fs, ?_, hjL, ?_⟩
  · have hflat : fs ∈ (greedyPack S (eligibleFiles T m)).flatten :=
      List.mem_flatten_of_mem (by
        rw [List.mem_enum_iff_get?, List.get?_eq_getElem?] at hkp
        exact List.getElem?_mem hkp) hfs
    rwa [greedyPack_flatten] at hflat
  · intro j' hj'
    simp only [List.mem_flatten, List.mem_map]
    exact ⟨chunkIndicesOfFile m fs.1, ⟨fs, hfs, rfl⟩, hj'⟩

/-- The manifest of the checkpoint a sync attempt targets. -/
def mOfConf (cfg : SyncConf) (v : Nat) (cp : Checkpoint) : Manifest :=
  compute_manifest v cfg.chunkSize cp

/-- The file-group plan of that manifest. -/
def groupsOfConf (cfg : SyncConf) (v : Nat) (cp : Checkpoint) : List (Nat × List Nat) :=
  build_file_group_chunks cfg.threshold cfg.chunkSize (mOfConf cfg v cp)

/-- The artifact a successful sync of checkpoint `cp` must produce. -/
def goodArtifact (cfg : SyncConf) (v : Nat) (cp : Checkpoint) : Artifact :=
  ⟨cfg.height, cfg.rootHash, cp, mOfConf cfg v cp, groupsOfConf cfg v cp⟩

/-- Chunk-table position `j` is still awaiting delivery: its own transfer id
is outstanding (for an ungrouped chunk), or a group containing it is. -/
def pendingChunk (groups : List (Nat × List Nat)) (fetch : Finset Nat) (j : Nat) : Prop :=
  (j + 1 ∈ fetch ∧ isGrouped groups j = false) ∨ ∃ g ∈ groups, j ∈ g.2 ∧ g.1 ∈ fetch

/-- All chunk ids a download may legitimately hold outstanding. -/
def validIds (m : Manifest) (groups : List (Nat × List Nat)) : Finset Nat :=
  ((Finset.range m.chunk_table.length).image (fun j => j + 1)) ∪
    (groups.map (fun g => g.1)).toFinset

/-- Basic shape of a scratchpad: one file per manifest row, and files the
manifest declares empty stay empty. -/
def scratchWF (cp : Checkpoint) (scratch : List Bytes) : Prop :=
  scratch.length = cp.length ∧
  ∀ f, f < cp.length → contentOf cp f = [] → scratch.getD f [] = []

/-- Content invariant of a healthy download: every file has its final length
and every chunk not pending already holds its manifest-recorded bytes. -/
def scratchFull (v S : Nat) (cp : Checkpoint) (groups : List (Nat × List Nat))
    (fetch : Finset Nat) (scratch : List Bytes) : Prop :=
  (∀ f, f < cp.length → (scratch.getD f []).length = (contentOf cp f).length) ∧
  (∀ j ci, (compute_manifest v S cp).chunk_table[j]? = some ci →
    pendingChunk groups fetch j ∨
    readRange (scratch.getD ci.file_index []) ci.offset ci.size_bytes = ciBytes cp ci)

/-- A `Loading` state carrying the full content invariant. -/
def FullLoading (cfg : SyncConf) (v : Nat) (cp : Checkpoint) (s : DownloadState) : Prop :=
  ∃ fetch scratch,
    s = .loading (mOfConf cfg v cp) (groupsOfConf cfg v cp) fetch scratch ∧
    fetch.Nonempty ∧
    fetch ⊆ validIds (mOfConf cfg v cp) (groupsOfConf cfg v cp) ∧
    scratchWF cp scratch ∧
    scratchFull v cfg.chunkSize cp (groupsOfConf cfg v cp) fetch scratch

/-- Either already complete with the right artifact, or a healthy `Loading`
state. -/
def GoodOrFull (cfg : SyncConf) (v : Nat) (cp : Checkpoint) (s : DownloadState) : Prop :=
  s = .complete (goodArtifact cfg v cp) ∨ FullLoading cfg v cp s

theorem isGrouped_iff {groups : List (Nat × List Nat)} {j : Nat} :
    isGrouped groups j = true ↔ ∃ g ∈ groups, j ∈ g.2 := by
  rw [isGrouped, List.any_eq_true]
  constructor
  · rintro ⟨g, hg, hc⟩
    exact ⟨g, hg, by simpa using hc⟩
  · rintro ⟨g, hg, hc⟩
    exact ⟨g, hg, by simpa using hc⟩

theorem getD_set_self {l : List Bytes} {i : Nat} {a : Bytes} (h : i < l.length) :
    (l.set i a).getD i [] = a := by
  rw [List.getD_eq_getElem?_getD, List.getElem?_set_self h]
  rfl

theorem getD_set_ne {l : List Bytes} {i j : Nat} {a : Bytes} (h : i ≠ j) :
    (l.set i a).getD j [] = l.getD j [] := by
  rw [List.getD_eq_getElem?_getD, List.getElem?_set_ne h, ← List.getD_eq_getElem?_getD]

theorem writeAt_pointwise_content {v S : Nat} (hS : 0 < S) {cp : Checkpoint} {ci : ChunkInfo}
    (hci : ci ∈ (compute_manifest v S cp).chunk_table) {l : Bytes}
    (hl : l.length = (contentOf cp ci.file_index).length) {p : Nat}
    (hp1 : ci.offset ≤ p) (hp2 : p < ci.offset + ci.size_bytes) :
    (writeAt l ci.offset (ciBytes cp ci))[p]? = (contentOf cp ci.file_index)[p]? := by
  obtain ⟨_, hbound, _, hsz, _⟩ := chunk_table_mem hS hci
  have hfit : ci.offset + (ciBytes cp ci).length ≤ l.length := by omega
  rw [getElem?_writeAt_of_le hfit p, if_pos ⟨hp1, by omega⟩]
  have hq : p - ci.offset < ci.size_bytes := by omega
  rw [ciBytes, getElem?_readRange hq]
  congr 1
  omega

theorem writeAt_chunk_len {v S : Nat} (hS : 0 < S) {cp : Checkpoint} {ci : ChunkInfo}
    (hci : ci ∈ (compute_manifest v S cp).chunk_table) {l : Bytes}
    (hl : l.length = (contentOf cp ci.file_index).length) :
    (writeAt l ci.offset (ciBytes cp ci)).length = l.length := by
  obtain ⟨_, hbound, _, hsz, _⟩ := chunk_table_mem hS hci
  exact length_writeAt_of_le (by omega)

theorem writeAt_chunk_new {v S : Nat} (hS : 0 < S) {cp : Checkpoint} {ci : ChunkInfo}
    (hci : ci ∈ (compute_manifest v S cp).chunk_table) {l : Bytes}
    (hl : l.length = (contentOf cp ci.file_index).length) :
    readRange (writeAt l ci.offset (ciBytes cp ci)) ci.offset ci.size_bytes =
      ciBytes cp ci := by
  have hgoal : readRange (writeAt l ci.offset (ciBytes cp ci)) ci.offset ci.size_bytes =
      readRange (contentOf cp ci.file_index) ci.offset ci.size_bytes := by
    apply readRange_eq_of_pointwise
    intro p hp1 hp2
    exact writeAt_pointwise_content hS hci hl hp1 hp2
  rw [hgoal]
  rfl

theorem writeAt_chunk_keep {v S : Nat} (hS : 0 < S) {cp : Checkpoint} {ci cj : ChunkInfo}
    (hci : ci ∈ (compute_manifest v S cp).chunk_table)
    (hcj : cj ∈ (compute_manifest v S cp).chunk_table)
    (hfile : cj.file_index = ci.file_index) {l : Bytes}
    (hl : l.length = (contentOf cp ci.file_index).length)
    (hold : readRange l cj.offset cj.size_bytes = ciBytes cp cj) :
    readRange (writeAt l ci.offset (ciBytes cp ci)) cj.offset cj.size_bytes =
      ciBytes cp cj := by
  have hgoal : readRange (writeAt l ci.offset (ciBytes cp ci)) cj.offset cj.size_bytes =
      readRange (contentOf cp cj.file_index) cj.offset cj.size_bytes := by
    apply readRange_eq_of_pointwise
    intro p hp1 hp2
    by_cases hin : ci.offset ≤ p ∧ p < ci.offset + ci.size_bytes
    · rw [writeAt_pointwise_content hS hci hl hin.1 hin.2, hfile]
    · obtain ⟨_, hbound, _, hsz, _⟩ := chunk_table_mem hS hci
      have hfit : ci.offset + (ciBytes cp ci).length ≤ l.length := by omega
      rw [getElem?_writeAt_of_le hfit p, if_neg (by rw [← hsz]; exact hin)]
      have hcb : ciBytes cp cj = readRange (contentOf cp cj.file_index) cj.offset
          cj.size_bytes := rfl
      rw [hcb] at hold
      rw [hfile] at hold ⊢
      exact getElem?_of_readRange_eq hold hp1 hp2
  rw [hgoal]
  rfl

theorem length_writeChunk {scratch : List Bytes} {ci : ChunkInfo} {b : Bytes} :
    (writeChunk scratch ci b).length = scratch.length := by
  rw [writeChunk, List.length_set]

theorem writeChunk_getD_ne {scratch : List Bytes} {ci : ChunkInfo} {b : Bytes} {f : Nat}
    (h : f ≠ ci.file_index) :
    (writeChunk scratch ci b).getD f [] = scratch.getD f [] := by
  rw [writeChunk, getD_set_ne (fun hh => h hh.symm)]

theorem writeChunk_getD_self {scratch : List Bytes} {ci : ChunkInfo} {b : Bytes}
    (h : ci.file_index < scratch.length) :
    (writeChunk scratch ci b).getD ci.file_index [] =
      writeAt (scratch.getD ci.file_index []) ci.offset b := by
  rw [writeChunk, getD_set_self h]

/-- A correct chunk write preserves the weak scratchpad shape. -/
theorem writeChunk_weak {v S : Nat} (hS : 0 < S) {cp : Checkpoint} {ci : ChunkInfo}
    (hci : ci ∈ (compute_manifest v S cp).chunk_table) {scratch : List Bytes} {b : Bytes}
    (hwf : scratchWF cp scratch) : scratchWF cp (writeChunk scratch ci b) := by
  obtain ⟨hfl, hbound, hpos, _, _⟩ := chunk_table_mem hS hci
  refine ⟨by rw [length_writeChunk]; exact hwf.1, fun f hf hempty => ?_⟩
  have hne : f ≠ ci.file_index := by
    intro rfl'
    rw [← rfl'] at hbound
    rw [hempty] at hbound
    simp at hbound
    omega
  rw [writeChunk_getD_ne hne]
  exact hwf.2 f hf hempty

/-- A correct chunk write preserves the full content invariant's length and
range facts and establishes its own range. -/
theorem writeChunk_full {v S : Nat} (hS : 0 < S) {cp : Checkpoint} {ci : ChunkInfo}
    (hci : ci ∈ (compute_manifest v S cp).chunk_table) {scratch : List Bytes}
    (hlen : scratch.length = cp.length)
    (hfl : ∀ f, f < cp.length → (scratch.getD f []).length = (contentOf cp f).length) :
    (∀ f, f < cp.length →
      ((writeChunk scratch ci (ciBytes cp ci)).getD f []).length = (contentOf cp f).length) ∧
    (∀ cj, cj ∈ (compute_manifest v S cp).chunk_table →
      readRange (scratch.getD cj.file_index []) cj.offset cj.size_bytes = ciBytes cp cj →
      readRange ((writeChunk scratch ci (ciBytes cp ci)).getD cj.file_index [])
        cj.offset cj.size_bytes = ciBytes cp cj) ∧
    readRange ((writeChunk scratch ci (ciBytes cp ci)).getD ci.file_index [])
      ci.offset ci.size_bytes = ciBytes cp ci := by
  obtain ⟨hfi, hbound, hpos, hsz, hh⟩ := chunk_table_mem hS hci
  have hself : (writeChunk scratch ci (ciBytes cp ci)).getD ci.file_index [] =
      writeAt (scratch.getD ci.file_index []) ci.offset (ciBytes cp ci) :=
    writeChunk_getD_self (by omega)
  have hl : (scratch.getD ci.file_index []).length = (contentOf cp ci.file_index).length :=
    hfl ci.file_index hfi
  refine ⟨?_, ?_, ?_⟩
  · intro f hf
    by_cases hfe : f = ci.file_index
    · subst hfe
      rw [hself, writeAt_chunk_len hS hci hl, hl]
    · rw [writeChunk_getD_ne hfe]
      exact hfl f hf
  · intro cj hcj hold
    by_cases hfe : cj.file_index = ci.file_index
    · rw [hfe, hself]
      rw [hfe] at hold
      exact writeAt_chunk_keep hS hci hcj hfe hl hold
    · rw [writeChunk_getD_ne hfe]
      exact hold
  · rw [hself]
    exact writeAt_chunk_new hS hci hl

/-- Demultiplexing the honest payload of a group succeeds and returns each
member row with its manifest-recorded bytes. -/
theorem demuxPieces_correct {v S : Nat} (hS : 0 < S) {cp : Checkpoint} :
    ∀ (ms : List Nat),
      (∀ j ∈ ms, ∃ ci, (compute_manifest v S cp).chunk_table[j]? = some ci) →
      demuxPieces (compute_manifest v S cp).chunk_table ms
        ((ms.map (fun j => ciBytes cp
          ((compute_manifest v S cp).chunk_table.getD j default))).flatten) =
      some (ms.map (fun j =>
        ((compute_manifest v S cp).chunk_table.getD j default,
          ciBytes cp ((compute_manifest v S cp).chunk_table.getD j default)))) := by
  intro ms
  induction ms with
  | nil => intro _; rfl
  | cons j rest ih =>
    intro hvalid
    obtain ⟨ci, hci⟩ := hvalid j (by simp)
    have hmem : ci ∈ (compute_manifest v S cp).chunk_table := List.getElem?_mem hci
    obtain ⟨_, _, _, hsz, hh⟩ := chunk_table_mem hS hmem
    have hgd : (compute_manifest v S cp).chunk_table.getD j default = ci := by
      rw [List.getD_eq_getElem?_getD, hci]
      rfl
    simp only [List.map_cons, List.flatten_cons, demuxPieces, hci]
    have htake : (ciBytes cp ci ++
        ((rest.map (fun j => ciBytes cp
          ((compute_manifest v S cp).chunk_table.getD j default))).flatten)).take
        ci.size_bytes = ciBytes cp ci := by
      rw [hsz]
      exact List.take_left _ _
    have hdrop : (ciBytes cp ci ++
        ((rest.map (fun j => ciBytes cp
          ((compute_manifest v S cp).chunk_table.getD j default))).flatten)).drop
        ci.size_bytes =
        (rest.map (fun j => ciBytes cp
          ((compute_manifest v S cp).chunk_table.getD j default))).flatten := by
      rw [hsz]
      exact List.drop_left _ _
    rw [hgd, htake, hdrop, if_pos (by rw [← hh]), ih (fun j' hj' => hvalid j' (by simp [hj']))]
    rfl

/-- Writing a group's validated pieces preserves the weak scratchpad shape. -/
theorem applyPieces_weak {v S : Nat} (hS : 0 < S) {cp : Checkpoint} :
    ∀ (ms : List Nat) (scratch : List Bytes),
      (∀ j ∈ ms, ∃ ci, (compute_manifest v S cp).chunk_table[j]? = some ci) →
      scratchWF cp scratch →
      scratchWF cp ((ms.map (fun j =>
        ((compute_manifest v S cp).chunk_table.getD j default,
          ciBytes cp ((compute_manifest v S cp).chunk_table.getD j default)))).foldl
        (fun sc q => writeChunk sc q.1 q.2) scratch) := by
  intro ms
  induction ms with
  | nil => intro scratch _ hwf; exact hwf
  | cons j rest ih =>
    intro scratch hvalid hwf
    obtain ⟨ci, hci⟩ := hvalid j (by simp)
    have hgd : (compute_manifest v S cp).chunk_table.getD j default = ci := by
      rw [List.getD_eq_getElem?_getD, hci]; rfl
    simp only [List.map_cons, List.foldl_cons, hgd]
    exact ih _ (fun j' hj' => hvalid j' (by simp [hj']))
      (writeChunk_weak hS (List.getElem?_mem hci) hwf)

/-- Writing a group's validated pieces keeps the content invariant and
establishes every member chunk's range. -/
theorem applyPieces_full {v S : Nat} (hS : 0 < S) {cp : Checkpoint} :
    ∀ (ms : List Nat) (scratch : List Bytes),
      (∀ j ∈ ms, ∃ ci, (compute_manifest v S cp).chunk_table[j]? = some ci) →
      scratch.length = cp.length →
      (∀ f, f < cp.length → (scratch.getD f []).length = (contentOf cp f).length) →
      (((ms.map (fun j =>
        ((compute_manifest v S cp).chunk_table.getD j default,
          ciBytes cp ((compute_manifest v S cp).chunk_table.getD j default)))).foldl
        (fun sc q => writeChunk sc q.1 q.2) scratch).length = cp.length) ∧
      (∀ f, f < cp.length →
        (((ms.map (fun j =>
          ((compute_manifest v S cp).chunk_table.getD j default,
            ciBytes cp ((compute_manifest v S cp).chunk_table.getD j default)))).foldl
          (fun sc q => writeChunk sc q.1 q.2) scratch).getD f []).length =
        (contentOf cp f).length) ∧
      (∀ cj, cj ∈ (compute_manifest v S cp).chunk_table →
        readRange (scratch.getD cj.file_index []) cj.offset cj.size_bytes = ciBytes cp cj →
        readRange (((ms.map (fun j =>
          ((compute_manifest v S cp).chunk_table.getD j default,
            ciBytes cp ((compute_manifest v S cp).chunk_table.getD j default)))).foldl
          (fun sc q => writeChunk sc q.1 q.2) scratch).getD cj.file_index [])
          cj.offset cj.size_bytes = ciBytes cp cj) ∧
      (∀ j ∈ ms, ∀ ci, (compute_manifest v S cp).chunk_table[j]? = some ci →
        readRange (((ms.map (fun j =>
          ((compute_manifest v S cp).chunk_table.getD j default,
            ciBytes cp ((compute_manifest v S cp).chunk_table.getD j default)))).foldl
          (fun sc q => writeChunk sc q.1 q.2) scratch).getD ci.file_index [])
          ci.offset ci.size_bytes = ciBytes cp ci) := by
  intro ms
  induction ms with
  | nil =>
    intro scratch _ hlen hfl
    exact ⟨hlen, hfl, fun cj _ hold => hold, fun j hj => absurd hj (by simp)⟩
  | cons j rest ih =>
    intro scratch hvalid hlen hfl
    obtain ⟨ci, hci⟩ := hvalid j (by simp)
    have hcimem : ci ∈ (compute_manifest v S cp).chunk_table := List.getElem?_mem hci
    have hgd : (compute_manifest v S cp).chunk_table.getD j default = ci := by
      rw [List.getD_eq_getElem?_getD, hci]; rfl
    have hstep := writeChunk_full hS hcimem hlen hfl
    have hlen' : (writeChunk scratch ci (ciBytes cp ci)).length = cp.length := by
      rw [length_writeChunk]; exact hlen
    have hrest := ih (writeChunk scratch ci (ciBytes cp ci))
      (fun j' hj' => hvalid j' (by simp [hj'])) hlen' hstep.1
    simp only [List.map_cons, List.foldl_cons, hgd]
    refine ⟨hrest.1, hrest.2.1, ?_, ?_⟩
    · intro cj hcj hold
      exact hrest.2.2.1 cj hcj (hstep.2.1 cj hcj hold)
    · intro j' hj' ci' hci'
      rcases List.mem_cons.mp hj' with rfl | hj''
      · have : ci' = ci := by rw [hci] at hci'; cases hci'; rfl
        subst this
        exact hrest.2.2.1 ci' hcimem hstep.2.2
      · exact hrest.2.2.2 j' hj'' ci' hci'

theorem fileIndexOfChunk_eq {m : Manifest} {j : Nat} {ci : ChunkInfo}
    (h : m.chunk_table[j]? = some ci) : fileIndexOfChunk m j = ci.file_index := by
  rw [fileIndexOfChunk, List.getD_eq_getElem?_getD, h]
  rfl

theorem zipPaths_getElem? {m : Manifest} {scratch : List Bytes} {f : Nat} :
    (zipPaths m scratch)[f]? =
      match m.file_table[f]?, scratch[f]? with
      | some fi, some sc => some (fi.relative_path, sc)
      | some _, none => none
      | none, _ => none := by
  rw [zipPaths, List.zip_eq_zipWith, List.getElem?_zipWith, List.getElem?_map]
  cases m.file_table[f]? <;> cases scratch[f]? <;> rfl

theorem getD_of_lt {l : List Bytes} {f : Nat} (h : f < l.length) :
    l[f]? = some (l.getD f []) := by
  rw [List.getD_eq_getElem?_getD]
  cases hx : l[f]? with
  | none =>
    rw [List.getElem?_eq_none_iff] at hx
    omega
  | some x => rfl

/-- Per-file agreement of the recomputed manifest with the target manifest is
exactly byte-identity of the scratchpad file. -/
theorem recomputed_entry_agree_iff {v S : Nat} (hS : 0 < S) {cp : Checkpoint}
    {scratch : List Bytes} (hlen : scratch.length = cp.length) {f : Nat}
    (hf : f < cp.length) :
    ((compute_manifest v S (zipPaths (compute_manifest v S cp) scratch)).file_table[f]? =
      (compute_manifest v S cp).file_table[f]?) ↔
      scratch.getD f [] = contentOf cp f := by
  cases hpb : cp[f]? with
  | none =>
    rw [List.getElem?_eq_none_iff] at hpb
    omega
  | some pb =>
    have hsc : scratch[f]? = some (scratch.getD f []) := getD_of_lt (by omega)
    have hcont : contentOf cp f = pb.2 := contentOf_getElem? hpb
    have hzf : (zipPaths (compute_manifest v S cp) scratch)[f]? =
        some (pb.1, scratch.getD f []) := by
      rw [zipPaths_getElem?, compute_manifest_file_table_getElem?, hpb, hsc]
      rfl
    rw [compute_manifest_file_table_getElem? v S (zipPaths (compute_manifest v S cp) scratch),
      compute_manifest_file_table_getElem? v S cp, hzf, hpb]
    simp only [Option.map_some', Option.some.injEq, FileInfo.mk.injEq]
    constructor
    · rintro ⟨_, hlen2, hhash⟩
      have := fileChunkHashes_inj hS (fileHashOf_inj hhash)
      rw [this, hcont]
    · intro heq
      rw [heq, hcont]
      simp

theorem resetFiles_length {m : Manifest} {scratch : List Bytes} {bad : List Nat} :
    (resetFiles m scratch bad).length = scratch.length := by
  rw [resetFiles, List.length_map, List.length_range]

theorem resetFiles_getD {m : Manifest} {scratch : List Bytes} {bad : List Nat} {f : Nat}
    (hf : f < scratch.length) :
    (resetFiles m scratch bad).getD f [] =
      if f ∈ bad then zeros (fileSize m f) else scratch.getD f [] := by
  rw [resetFiles, List.getD_eq_getElem?_getD, List.getElem?_map, List.getElem?_range hf]
  rfl

theorem refetchIds_subset_valid {m : Manifest} {groups : List (Nat × List Nat)}
    {bad : List Nat} : refetchIds m groups bad ⊆ validIds m groups := by
  intro x hx
  rw [refetchIds, Finset.mem_union] at hx
  rw [validIds, Finset.mem_union]
  rcases hx with hx | hx
  · left
    rw [List.mem_toFinset, List.mem_map] at hx
    obtain ⟨j, hj, rfl⟩ := hx
    rw [List.mem_filter] at hj
    rw [Finset.mem_image]
    exact ⟨j, by simpa using List.mem_range.mp hj.1, rfl⟩
  · right
    rw [List.mem_toFinset, List.mem_map] at hx ⊢
    obtain ⟨g, hg, rfl⟩ := hx
    rw [List.mem_filter] at hg
    exact ⟨g, hg.1, rfl⟩

theorem mem_refetchIds_ungrouped {m : Manifest} {groups : List (Nat × List Nat)}
    {bad : List Nat} {j : Nat} {ci : ChunkInfo} (hj : m.chunk_table[j]? = some ci)
    (hbad : ci.file_index ∈ bad) (hng : isGrouped groups j = false) :
    j + 1 ∈ refetchIds m groups bad := by
  rw [refetchIds, Finset.mem_union]
  left
  rw [List.mem_toFinset, List.mem_map]
  refine ⟨j, ?_, rfl⟩
  rw [List.mem_filter]
  refine ⟨List.mem_range.mpr ?_, ?_⟩
  · by_contra hno
    rw [List.getElem?_eq_none (by omega)] at hj
    cases hj
  · rw [fileIndexOfChunk_eq hj, hng]
    simp [hbad]

theorem mem_refetchIds_grouped {m : Manifest} {groups : List (Nat × List Nat)}
    {bad : List Nat} {g : Nat × List Nat} (hg : g ∈ groups) {j : Nat} {ci : ChunkInfo}
    (hjg : j ∈ g.2) (hj : m.chunk_table[j]? = some ci) (hbad : ci.file_index ∈ bad) :
    g.1 ∈ refetchIds m groups bad := by
  rw [refetchIds, Finset.mem_union]
  right
  rw [List.mem_toFinset, List.mem_map]
  refine ⟨g, ?_, rfl⟩
  rw [List.mem_filter]
  refine ⟨hg, ?_⟩
  rw [List.any_eq_true]
  exact ⟨j, hjg, by rw [fileIndexOfChunk_eq hj]; simpa using hbad⟩

/-- From the full invariant with nothing outstanding, every file of the
scratchpad equals the checkpoint's. -/
theorem scratchFull_empty_content {v S : Nat} (hS : 0 < S) {cp : Checkpoint}
    {groups : List (Nat × List Nat)} {scratch : List Bytes}
    (hfull : scratchFull v S cp groups ∅ scratch) :
    ∀ f, f < cp.length → scratch.getD f [] = contentOf cp f := by
  intro f hf
  apply scratch_file_eq (v := v) hS hf (hfull.1 f hf)
  intro ci hci hfile
  obtain ⟨j, hj⟩ := List.mem_iff_getElem?.mp hci
  rcases hfull.2 j ci hj with hpend | hok
  · rcases hpend with ⟨hmem, _⟩ | ⟨g, _, _, hmem⟩ <;> exact absurd hmem (Finset.not_mem_empty _)
  · rw [hfile] at hok
    rw [← hfile] at hok ⊢
    exact hok

theorem mOfConf_version {cfg : SyncConf} {v : Nat} {cp : Checkpoint} :
    (mOfConf cfg v cp).version = v := rfl

theorem compute_manifest_version {v S : Nat} {cp : Checkpoint} :
    (compute_manifest v S cp).version = v := rfl

theorem zipPaths_eq_self {v S : Nat} {cp : Checkpoint} {scratch : List Bytes}
    (hlen : scratch.length = cp.length)
    (hcont : ∀ f, f < cp.length → scratch.getD f [] = contentOf cp f) :
    zipPaths (compute_manifest v S cp) scratch = cp := by
  apply List.ext_getElem?
  intro f
  rw [zipPaths_getElem?, compute_manifest_file_table_getElem?]
  cases hpb : cp[f]? with
  | none =>
    have hlt : ¬ f < cp.length := by
      intro h
      rw [List.getElem?_eq_none_iff] at hpb
      omega
    have hsc : scratch[f]? = none := List.getElem?_eq_none (by omega)
    rw [hsc]
    rfl
  | some pb =>
    have hflt : f < cp.length := by
      by_contra hno
      rw [List.getElem?_eq_none (by omega)] at hpb
      cases hpb
    rw [getD_of_lt (show f < scratch.length by omega)]
    simp only [Option.map_some']
    have := hcont f hflt
    rw [contentOf_getElem? hpb] at this
    rw [this]

theorem mem_badFiles_iff {cfg : SyncConf} {v : Nat} (hS : 0 < cfg.chunkSize)
    {cp : Checkpoint} {scratch : List Bytes} (hlen : scratch.length = cp.length) {f : Nat} :
    f ∈ badFiles cfg (mOfConf cfg v cp) scratch ↔
      f < cp.length ∧ scratch.getD f [] ≠ contentOf cp f := by
  have hmr : mOfConf cfg v cp = compute_manifest v cfg.chunkSize cp := rfl
  rw [badFiles, hmr, compute_manifest_version, List.mem_filter, List.mem_range,
    compute_manifest_file_table_length]
  constructor
  · rintro ⟨hflt, hne⟩
    refine ⟨hflt, fun heq => ?_⟩
    simp only [Bool.not_eq_eq_eq_not, Bool.not_true, beq_eq_false_iff_ne, ne_eq] at hne
    exact hne ((recomputed_entry_agree_iff hS hlen hflt).mpr heq)
  · rintro ⟨hflt, hne⟩
    refine ⟨hflt, ?_⟩
    simp only [Bool.not_eq_eq_eq_not, Bool.not_true, beq_eq_false_iff_ne, ne_eq]
    intro heq
    exact hne ((recomputed_entry_agree_iff hS hlen hflt).mp heq)

/-- When every scratchpad file matches the checkpoint, the completion check
promotes the scratchpad into the correct completed artifact. -/
theorem checkCompletion_complete (cfg : SyncConf) (v : Nat) (cp : Checkpoint)
    (hS : 0 < cfg.chunkSize) {scratch : List Bytes} (hlen : scratch.length = cp.length)
    (hcont : ∀ f, f < cp.length → scratch.getD f [] = contentOf cp f) :
    checkCompletion cfg (mOfConf cfg v cp) (groupsOfConf cfg v cp) scratch =
      .complete (goodArtifact cfg v cp) := by
  have hbad : badFiles cfg (mOfConf cfg v cp) scratch = [] := by
    rw [List.eq_nil_iff_forall_not_mem]
    intro f hf
    rw [mem_badFiles_iff hS hlen] at hf
    exact hf.2 (hcont f hf.1)
  have hmr : mOfConf cfg v cp = compute_manifest v cfg.chunkSize cp := rfl
  rw [checkCompletion, hbad]
  simp only [List.isEmpty_nil, if_pos]
  rw [goodArtifact, hmr, zipPaths_eq_self hlen hcont]

/-- The completion check of any well-shaped scratchpad either completes with
the correct artifact or re-enters `Loading` with the full content invariant
restored on the disagreeing files. -/
theorem checkCompletion_goodOrFull (cfg : SyncConf) (v : Nat) (cp : Checkpoint)
    (hS : 0 < cfg.chunkSize) {scratch : List Bytes} (hwf : scratchWF cp scratch) :
    GoodOrFull cfg v cp
      (checkCompletion cfg (mOfConf cfg v cp) (groupsOfConf cfg v cp) scratch) := by
  by_cases hbad : (badFiles cfg (mOfConf cfg v cp) scratch).isEmpty
  · left
    have hnil : badFiles cfg (mOfConf cfg v cp) scratch = [] := by
      cases hb : badFiles cfg (mOfConf cfg v cp) scratch with
      | nil => rfl
      | cons a l => rw [hb] at hbad; simp at hbad
    have hcont : ∀ f, f < cp.length → scratch.getD f [] = contentOf cp f := by
      intro f hf
      by_contra hne
      have : f ∈ badFiles cfg (mOfConf cfg v cp) scratch :=
        (mem_badFiles_iff hS hwf.1).mpr ⟨hf, hne⟩
      rw [hnil] at this
      cases this
    exact checkCompletion_complete cfg v cp hS hwf.1 hcont
  · right
    rw [checkCompletion, if_neg hbad]
    refine ⟨refetchIds (mOfConf cfg v cp) (groupsOfConf cfg v cp)
        (badFiles cfg (mOfConf cfg v cp) scratch),
      resetFiles (mOfConf cfg v cp) scratch (badFiles cfg (mOfConf cfg v cp) scratch),
      rfl, ?_, refetchIds_subset_valid, ?_, ?_, ?_⟩
    · obtain ⟨f0, hf0⟩ : ∃ f0, f0 ∈ badFiles cfg (mOfConf cfg v cp) scratch := by
        cases hb : badFiles cfg (mOfConf cfg v cp) scratch with
        | nil => rw [hb] at hbad; simp at hbad
        | cons a l => exact ⟨a, by simp [hb]⟩
      obtain ⟨hflt, hne⟩ := (mem_badFiles_iff hS hwf.1).mp hf0
      have hcne : contentOf cp f0 ≠ [] := by
        intro hempty
        exact hne (by rw [hwf.2 f0 hflt hempty, hempty])
      have hpos : 0 < (contentOf cp f0).length := by
        cases hcc : contentOf cp f0 with
        | nil => exact absurd hcc hcne
        | cons x xs => simp [hcc]
      obtain ⟨k, piece, hk, _, _⟩ := splitChunks_cover (b := contentOf cp f0)
        (p := 0) hS hpos
      have hcimem := chunk_table_of_split (v := v) hS hflt hk
      obtain ⟨j, hj⟩ := List.mem_iff_getElem?.mp hcimem
      cases hgj : isGrouped (groupsOfConf cfg v cp) j with
      | false =>
        exact ⟨j + 1, mem_refetchIds_ungrouped hj hf0 hgj⟩
      | true =>
        obtain ⟨g, hg, hjg⟩ := isGrouped_iff.mp hgj
        exact ⟨g.1, mem_refetchIds_grouped hg hjg hj hf0⟩
    · constructor
      · rw [resetFiles_length]
        exact hwf.1
      · intro f hf hempty
        obtain ⟨hslen, hsH0⟩ := hwf
        rw [resetFiles_getD (by omega)]
        split_ifs with hfb
        · have hmr : mOfConf cfg v cp = compute_manifest v cfg.chunkSize cp := rfl
          rw [zeros, hmr, fileSize_eq_length hf, hempty]
          rfl
        · exact hsH0 f hf hempty
    · intro f hf
      obtain ⟨hslen, hsH0⟩ := hwf
      rw [resetFiles_getD (show f < scratch.length by omega)]
      split_ifs with hfb
      · have hmr : mOfConf cfg v cp = compute_manifest v cfg.chunkSize cp := rfl
        rw [zeros, List.length_replicate, hmr, fileSize_eq_length hf]
      · have := (mem_badFiles_iff hS hslen).not.mp hfb
        push_neg at this
        rw [this hf]
    · intro j ci hj
      have hcimem : ci ∈ (mOfConf cfg v cp).chunk_table := List.getElem?_mem hj
      obtain ⟨hfi, _, _, _, _⟩ := chunk_table_mem hS hcimem
      by_cases hfb : ci.file_index ∈ badFiles cfg (mOfConf cfg v cp) scratch
      · left
        cases hgj : isGrouped (groupsOfConf cfg v cp) j with
        | false => exact Or.inl ⟨mem_refetchIds_ungrouped hj hfb hgj, hgj⟩
        | true =>
          obtain ⟨g, hg, hjg⟩ := isGrouped_iff.mp hgj
          exact Or.inr ⟨g, hg, hjg, mem_refetchIds_grouped hg hjg hj hfb⟩
      · right
        have hslen : scratch.length = cp.length := hwf.1
        rw [resetFiles_getD (show ci.file_index < scratch.length by omega)]
        rw [if_neg hfb]
        have := (mem_badFiles_iff hS hslen).not.mp hfb
        push_neg at this
        rw [this hfi]
        rfl

theorem add_chunk_not_fetch {cfg : SyncConf} {cov : CoverageSource} {m : Manifest}
    {groups : List (Nat × List Nat)} {fetch : Finset Nat} {scratch : List Bytes}
    {cid : Nat} {b : Bytes} (h : cid ∉ fetch) :
    add_chunk cfg cov (.loading m groups fetch scratch) cid (.bytes b) =
      .loading m groups fetch scratch := by
  simp only [add_chunk]
  rw [if_neg h]

theorem add_chunk_regular {cfg : SyncConf} {cov : CoverageSource} {m : Manifest}
    {groups : List (Nat × List Nat)} {fetch : Finset Nat} {scratch : List Bytes}
    {cid : Nat} {b : Bytes} {ci : ChunkInfo} (h : cid ∈ fetch)
    (hfind : groups.find? (fun g => g.1 == cid) = none)
    (hci : m.chunk_table[cid - 1]? = some ci) (hhash : chunkHash b = ci.chunk_hash) :
    add_chunk cfg cov (.loading m groups fetch scratch) cid (.bytes b) =
      mkLoading cfg m groups (fetch.erase cid) (writeChunk scratch ci b) := by
  simp only [add_chunk]
  rw [if_pos h, hfind, hci]
  show (if chunkHash b = ci.chunk_hash
      then mkLoading cfg m groups (fetch.erase cid) (writeChunk scratch ci b)
      else DownloadState.loading m groups fetch scratch) = _
  rw [if_pos hhash]

theorem add_chunk_group {cfg : SyncConf} {cov : CoverageSource} {m : Manifest}
    {groups : List (Nat × List Nat)} {fetch : Finset Nat} {scratch : List Bytes}
    {cid : Nat} {b : Bytes} {g : Nat × List Nat} {pieces : List (ChunkInfo × Bytes)}
    (h : cid ∈ fetch) (hfind : groups.find? (fun g => g.1 == cid) = some g)
    (hdemux : demuxPieces m.chunk_table g.2 b = some pieces) :
    add_chunk cfg cov (.loading m groups fetch scratch) cid (.bytes b) =
      mkLoading cfg m groups (fetch.erase cid)
        (pieces.foldl (fun sc q => writeChunk sc q.1 q.2) scratch) := by
  simp only [add_chunk]
  rw [if_pos h, hfind]
  show (match demuxPieces m.chunk_table g.2 b with
    | some pieces => mkLoading cfg m groups (fetch.erase cid)
        (pieces.foldl (fun sc (q : ChunkInfo × Bytes) => writeChunk sc q.1 q.2) scratch)
    | none => DownloadState.loading m groups fetch scratch) = _
  rw [hdemux]

theorem add_chunk_complete {cfg : SyncConf} {cov : CoverageSource} {a : Artifact}
    {cid : Nat} {p : Payload} :
    add_chunk cfg cov (.complete a) cid p = .complete a := rfl

theorem add_chunk_loading_manifest {cfg : SyncConf} {cov : CoverageSource} {m : Manifest}
    {groups : List (Nat × List Nat)} {fetch : Finset Nat} {scratch : List Bytes}
    {cid : Nat} {m' : Manifest} :
    add_chunk cfg cov (.loading m groups fetch scratch) cid (.manifest m') =
      .loading m groups fetch scratch := rfl

/-- Delivering the honest payload of any outstanding chunk id erases the id,
preserves the scratchpad shape, and preserves the full content invariant. -/
theorem add_chunk_step (cfg : SyncConf) (cov : CoverageSource) (v : Nat) (cp : Checkpoint)
    (hS : 0 < cfg.chunkSize)
    (hN : (mOfConf cfg v cp).chunk_table.length < FILE_GROUP_CHUNK_ID_OFFSET)
    {fetch : Finset Nat} {scratch : List Bytes}
    (hsub : fetch ⊆ validIds (mOfConf cfg v cp) (groupsOfConf cfg v cp))
    (hwf : scratchWF cp scratch) {id : Nat} (hid : id ∈ fetch) :
    ∃ scratch',
      add_chunk cfg cov (.loading (mOfConf cfg v cp) (groupsOfConf cfg v cp) fetch scratch)
        id (correctPayload cp (mOfConf cfg v cp) (groupsOfConf cfg v cp) id) =
        mkLoading cfg (mOfConf cfg v cp) (groupsOfConf cfg v cp) (fetch.erase id) scratch' ∧
      scratchWF cp scratch' ∧
      (scratchFull v cfg.chunkSize cp (groupsOfConf cfg v cp) fetch scratch →
        scratchFull v cfg.chunkSize cp (groupsOfConf cfg v cp) (fetch.erase id) scratch') := by
  have hval := hsub hid
  rw [validIds, Finset.mem_union] at hval
  have hNc : (compute_manifest v cfg.chunkSize cp).chunk_table.length <
      FILE_GROUP_CHUNK_ID_OFFSET := hN
  have hnd : ((groupsOfConf cfg v cp).map (fun g => g.1)).Nodup :=
    build_keys_nodup cfg.threshold cfg.chunkSize (mOfConf cfg v cp)
  by_cases hgroup : ∃ g ∈ groupsOfConf cfg v cp, g.1 = id
  · obtain ⟨g, hg, rfl⟩ := hgroup
    have hfind : (groupsOfConf cfg v cp).find? (fun g' => g'.1 == g.1) = some g :=
      find?_of_keys_nodup _ hnd g hg
    have hvalid : ∀ j ∈ g.2, ∃ ci, (mOfConf cfg v cp).chunk_table[j]? = some ci := by
      intro j hj
      obtain ⟨fsz, _, hjf, _⟩ := build_member_block hg hj
      obtain ⟨ci, hci, _⟩ := mem_chunkIndicesOfFile.mp hjf
      exact ⟨ci, hci⟩
    have hpay : correctPayload cp (mOfConf cfg v cp) (groupsOfConf cfg v cp) g.1 =
        .bytes ((g.2.map (fun j => ciBytes cp
          ((mOfConf cfg v cp).chunk_table.getD j default))).flatten) := by
      rw [correctPayload, hfind]
    have hdemux : demuxPieces (mOfConf cfg v cp).chunk_table g.2
        ((g.2.map (fun j => ciBytes cp
          ((mOfConf cfg v cp).chunk_table.getD j default))).flatten) =
        some (g.2.map (fun j => ((mOfConf cfg v cp).chunk_table.getD j default,
          ciBytes cp ((mOfConf cfg v cp).chunk_table.getD j default)))) :=
      demuxPieces_correct (v := v) (S := cfg.chunkSize) hS g.2 hvalid
    refine ⟨(g.2.map (fun j =>
        ((mOfConf cfg v cp).chunk_table.getD j default,
          ciBytes cp ((mOfConf cfg v cp).chunk_table.getD j default)))).foldl
        (fun sc q => writeChunk sc q.1 q.2) scratch, ?_, ?_, ?_⟩
    · rw [hpay, add_chunk_group hid hfind hdemux]
    · exact applyPieces_weak hS g.2 scratch hvalid hwf
    · intro hfull
      have happ := applyPieces_full hS g.2 scratch hvalid hwf.1 hfull.1
      refine ⟨happ.2.1, ?_⟩
      intro j' ci' hj'
      rcases hfull.2 j' ci' hj' with hpend | hok
      · rcases hpend with ⟨hmem, hng⟩ | ⟨g', hg', hjg', hgf'⟩
        · left
          left
          refine ⟨Finset.mem_erase.mpr ⟨?_, hmem⟩, hng⟩
          have hge := build_keys_ge _ _ _ g hg
          have hjlt : j' < (compute_manifest v cfg.chunkSize cp).chunk_table.length := by
            by_contra hno
            rw [List.getElem?_eq_none (by omega)] at hj'
            cases hj'
          omega
        · by_cases hsame : g'.1 = g.1
          · have : g' = g := by
              have h1 := find?_of_keys_nodup _ hnd g' hg'
              rw [hsame] at h1
              rw [h1] at hfind
              cases hfind
              rfl
            subst this
            right
            exact happ.2.2.2 j' hjg' ci' hj'
          · left
            right
            exact ⟨g', hg', hjg', Finset.mem_erase.mpr ⟨hsame, hgf'⟩⟩
      · right
        exact happ.2.2.1 ci' (List.getElem?_mem hj') hok
  · have himg : id ∈ (Finset.range (mOfConf cfg v cp).chunk_table.length).image
        (fun j => j + 1) := by
      rcases hval with h | h
      · exact h
      · rw [List.mem_toFinset, List.mem_map] at h
        obtain ⟨g, hg, rfl⟩ := h
        exact absurd ⟨g, hg, rfl⟩ hgroup
    rw [Finset.mem_image] at himg
    obtain ⟨j, hjr, rfl⟩ := himg
    rw [Finset.mem_range] at hjr
    have hfind : (groupsOfConf cfg v cp).find? (fun g' => g'.1 == j + 1) = none := by
      rw [List.find?_eq_none]
      intro g hg
      simp only [beq_iff_eq]
      exact fun hh => hgroup ⟨g, hg, hh⟩
    obtain ⟨ci, hci⟩ : ∃ ci, (mOfConf cfg v cp).chunk_table[j]? = some ci := by
      cases hx : (mOfConf cfg v cp).chunk_table[j]? with
      | none =>
        rw [List.getElem?_eq_none_iff] at hx
        omega
      | some ci => exact ⟨ci, rfl⟩
    have hcimem : ci ∈ (mOfConf cfg v cp).chunk_table := List.getElem?_mem hci
    obtain ⟨hfi, hbound, hpos, hsz, hh⟩ := chunk_table_mem hS hcimem
    have hgd : (mOfConf cfg v cp).chunk_table.getD (j + 1 - 1) default = ci := by
      have : j + 1 - 1 = j := by omega
      rw [this, List.getD_eq_getElem?_getD, hci]
      rfl
    have hpay : correctPayload cp (mOfConf cfg v cp) (groupsOfConf cfg v cp) (j + 1) =
        .bytes (ciBytes cp ci) := by
      rw [correctPayload, hfind, hgd]
    have hci' : (mOfConf cfg v cp).chunk_table[j + 1 - 1]? = some ci := by
      have : j + 1 - 1 = j := by omega
      rw [this]
      exact hci
    refine ⟨writeChunk scratch ci (ciBytes cp ci), ?_, ?_, ?_⟩
    · rw [hpay, add_chunk_regular hid hfind hci' hh.symm]
    · exact writeChunk_weak hS hcimem hwf
    · intro hfull
      have hstep := writeChunk_full hS hcimem hwf.1 hfull.1
      refine ⟨hstep.1, ?_⟩
      intro j' ci' hj'
      rcases hfull.2 j' ci' hj' with hpend | hok
      · rcases hpend with ⟨hmem, hng⟩ | ⟨g', hg', hjg', hgf'⟩
        · by_cases hsame : j' + 1 = j + 1
          · have hj'j : j' = j := by omega
            have hcic : (compute_manifest v cfg.chunkSize cp).chunk_table[j]? = some ci := hci
            rw [hj'j, hcic] at hj'
            have hcieq : ci' = ci := by cases hj'; rfl
            subst hcieq
            right
            exact hstep.2.2
          · left
            left
            exact ⟨Finset.mem_erase.mpr ⟨hsame, hmem⟩, hng⟩
        · left
          right
          refine ⟨g', hg', hjg', Finset.mem_erase.mpr ⟨?_, hgf'⟩⟩
          have hge := build_keys_ge _ _ _ g' hg'
          omega
      · right
        exact hstep.2.1 ci' (List.getElem?_mem hj') hok

theorem correctPayload_bytes (cp : Checkpoint) (m : Manifest)
    (groups : List (Nat × List Nat)) (id : Nat) :
    ∃ b, correctPayload cp m groups id = .bytes b := by
  unfold correctPayload
  cases groups.find? (fun g => g.1 == id) <;> exact ⟨_, rfl⟩

theorem runSync_cons (cfg : SyncConf) (cov : CoverageSource) (s : DownloadState)
    (d : Nat × Payload) (ds : List (Nat × Payload)) :
    runSync cfg cov s (d :: ds) = runSync cfg cov (add_chunk cfg cov s d.1 d.2) ds := rfl

theorem runSync_complete (cfg : SyncConf) (cov : CoverageSource) (a : Artifact) :
    ∀ ds, runSync cfg cov (.complete a) ds = .complete a := by
  intro ds
  induction ds with
  | nil => rfl
  | cons d ds ih => rw [runSync_cons, add_chunk_complete, ih]

/-- Folding honest deliveries that cover the outstanding set over a healthy
state completes the sync with the correct artifact. -/
theorem runSync_good (cfg : SyncConf) (cov : CoverageSource) (v : Nat) (cp : Checkpoint)
    (hS : 0 < cfg.chunkSize)
    (hN : (mOfConf cfg v cp).chunk_table.length < FILE_GROUP_CHUNK_ID_OFFSET) :
    ∀ (ds : List (Nat × Payload)) (s : DownloadState),
      GoodOrFull cfg v cp s →
      (∀ d ∈ ds, d.2 = correctPayload cp (mOfConf cfg v cp) (groupsOfConf cfg v cp) d.1) →
      chunks_to_download s ⊆ (ds.map (fun d => d.1)).toFinset →
      runSync cfg cov s ds = .complete (goodArtifact cfg v cp) := by
  intro ds
  induction ds with
  | nil =>
    intro s hgood _ hsub
    rcases hgood with hc | ⟨fetch, scratch, rfl, hne, _, _, _⟩
    · rw [hc]; rfl
    · exfalso
      obtain ⟨x, hx⟩ := hne
      have := hsub (by rw [chunks_to_download]; exact hx)
      simp at this
  | cons d rest ih =>
    intro s hgood hok hsub
    rcases hgood with hc | ⟨fetch, scratch, rfl, hne, hsubv, hwf, hfull⟩
    · rw [hc, runSync_complete]
    · by_cases hd : d.1 ∈ fetch
      · obtain ⟨scratch', heq, hwf', hfimp⟩ :=
          add_chunk_step cfg cov v cp hS hN hsubv hwf hd
        have hfull' := hfimp hfull
        rw [runSync_cons, hok d (by simp), heq]
        by_cases hre : (fetch.erase d.1).Nonempty
        · rw [mkLoading, if_pos hre]
          apply ih _ (Or.inr ⟨fetch.erase d.1, scratch', rfl, hre,
            fun x hx => hsubv (Finset.mem_of_mem_erase hx), hwf', hfull'⟩)
            (fun d' hd' => hok d' (by simp [hd']))
          intro x hx
          rw [chunks_to_download] at hx
          have hxf : x ∈ fetch := Finset.mem_of_mem_erase hx
          have hxne : x ≠ d.1 := Finset.ne_of_mem_erase hx
          have := hsub (by rw [chunks_to_download]; exact hxf)
          simp only [List.map_cons, List.toFinset_cons, Finset.mem_insert] at this
          rcases this with h | h
          · exact absurd h hxne
          · exact h
        · have hemp : fetch.erase d.1 = ∅ := Finset.not_nonempty_iff_eq_empty.mp hre
          have hfull0 : scratchFull v cfg.chunkSize cp (groupsOfConf cfg v cp) ∅ scratch' := by
            rw [← hemp]
            exact hfull'
          have hcont := scratchFull_empty_content (v := v) hS hfull0
          rw [mkLoading, if_neg hre,
            checkCompletion_complete cfg v cp hS hwf'.1 hcont, runSync_complete]
      · have heq : add_chunk cfg cov
            (.loading (mOfConf cfg v cp) (groupsOfConf cfg v cp) fetch scratch) d.1 d.2 =
            .loading (mOfConf cfg v cp) (groupsOfConf cfg v cp) fetch scratch := by
          obtain ⟨b, hb⟩ := correctPayload_bytes cp (mOfConf cfg v cp) (groupsOfConf cfg v cp) d.1
          rw [hok d (by simp), hb]
          exact add_chunk_not_fetch hd
        rw [runSync_cons, heq]
        apply ih _ (Or.inr ⟨fetch, scratch, rfl, hne, hsubv, hwf, hfull⟩)
          (fun d' hd' => hok d' (by simp [hd']))
        intro x hx
        rw [chunks_to_download] at hx
        have := hsub (by rw [chunks_to_download]; exact hx)
        simp only [List.map_cons, List.toFinset_cons, Finset.mem_insert] at this
        rcases this with h | h
        · exact absurd (h ▸ hx) hd
        · exact h

/-- Delivering every outstanding id once, in order, over any well-shaped
`Loading` state ends healthy: complete with the right artifact, or `Loading`
with the content invariant restored by the completion check. -/
theorem runSync_weak (cfg : SyncConf) (cov : CoverageSource) (v : Nat) (cp : Checkpoint)
    (hS : 0 < cfg.chunkSize)
    (hN : (mOfConf cfg v cp).chunk_table.length < FILE_GROUP_CHUNK_ID_OFFSET) :
    ∀ (L : List Nat) (fetch : Finset Nat) (scratch : List Bytes),
      L.Nodup → L.toFinset = fetch → fetch.Nonempty →
      fetch ⊆ validIds (mOfConf cfg v cp) (groupsOfConf cfg v cp) →
      scratchWF cp scratch →
      GoodOrFull cfg v cp (runSync cfg cov
        (.loading (mOfConf cfg v cp) (groupsOfConf cfg v cp) fetch scratch)
        (L.map (fun id => (id,
          correctPayload cp (mOfConf cfg v cp) (groupsOfConf cfg v cp) id)))) := by
  intro L
  induction L with
  | nil =>
    intro fetch scratch _ hfin hne _ _
    exfalso
    obtain ⟨x, hx⟩ := hne
    rw [← hfin] at hx
    simp at hx
  | cons a L ih =>
    intro fetch scratch hnd hfin hne hsubv hwf
    have ha : a ∈ fetch := by
      rw [← hfin]
      simp
    obtain ⟨scratch', heq, hwf', _⟩ := add_chunk_step cfg cov v cp hS hN hsubv hwf ha
    rw [List.map_cons, runSync_cons, heq]
    rw [List.nodup_cons] at hnd
    have hfin' : L.toFinset = fetch.erase a := by
      apply Finset.ext
      intro x
      rw [List.mem_toFinset, Finset.mem_erase, ← hfin]
      constructor
      · intro hx
        exact ⟨fun hh => hnd.1 (hh ▸ hx), by simp [hx]⟩
      · rintro ⟨hxa, hx⟩
        rw [List.mem_toFinset, List.mem_cons] at hx
        rcases hx with rfl | hx
        · exact absurd rfl hxa
        · exact hx
    by_cases hre : (fetch.erase a).Nonempty
    · rw [mkLoading, if_pos hre]
      exact ih (fetch.erase a) scratch' hnd.2 hfin' hre
        (fun x hx => hsubv (Finset.mem_of_mem_erase hx)) hwf'
    · have hemp : fetch.erase a = ∅ := Finset.not_nonempty_iff_eq_empty.mp hre
      have hL : L = [] := by
        cases L with
        | nil => rfl
        | cons b L' =>
          exfalso
          have : b ∈ fetch.erase a := by
            rw [← hfin']
            simp
          rw [hemp] at this
          simp at this
      rw [mkLoading, if_neg hre, hL]
      simp only [List.map_nil]
      exact checkCompletion_goodOrFull cfg v cp hS hwf'

/-- Delivering any nodup subset of the outstanding ids keeps the content
invariant, removing exactly the delivered ids, unless the sync completes. -/
theorem runSync_partial (cfg : SyncConf) (cov : CoverageSource) (v : Nat) (cp : Checkpoint)
    (hS : 0 < cfg.chunkSize)
    (hN : (mOfConf cfg v cp).chunk_table.length < FILE_GROUP_CHUNK_ID_OFFSET) :
    ∀ (L : List Nat) (fetch : Finset Nat) (scratch : List Bytes),
      L.Nodup → L.toFinset ⊆ fetch →
      fetch ⊆ validIds (mOfConf cfg v cp) (groupsOfConf cfg v cp) →
      scratchWF cp scratch →
      scratchFull v cfg.chunkSize cp (groupsOfConf cfg v cp) fetch scratch →
      (runSync cfg cov (.loading (mOfConf cfg v cp) (groupsOfConf cfg v cp) fetch scratch)
          (L.map (fun id => (id,
            correctPayload cp (mOfConf cfg v cp) (groupsOfConf cfg v cp) id))) =
        .complete (goodArtifact cfg v cp)) ∨
      (∃ scratch',
        runSync cfg cov (.loading (mOfConf cfg v cp) (groupsOfConf cfg v cp) fetch scratch)
          (L.map (fun id => (id,
            correctPayload cp (mOfConf cfg v cp) (groupsOfConf cfg v cp) id))) =
          .loading (mOfConf cfg v cp) (groupsOfConf cfg v cp) (fetch \ L.toFinset) scratch' ∧
        scratchWF cp scratch' ∧
        scratchFull v cfg.chunkSize cp (groupsOfConf cfg v cp) (fetch \ L.toFinset)
          scratch') := by
  intro L
  induction L with
  | nil =>
    intro fetch scratch _ _ _ hwf hfull
    right
    refine ⟨scratch, ?_, hwf, ?_⟩
    · simp only [List.map_nil, List.toFinset_nil, Finset.sdiff_empty]
      rfl
    · simp only [List.toFinset_nil, Finset.sdiff_empty]
      exact hfull
  | cons a L ih =>
    intro fetch scratch hnd hsub hsubv hwf hfull
    have ha : a ∈ fetch := hsub (by simp)
    obtain ⟨scratch', heq, hwf', hfimp⟩ := add_chunk_step cfg cov v cp hS hN hsubv hwf ha
    have hfull' := hfimp hfull
    rw [List.map_cons, runSync_cons, heq]
    rw [List.nodup_cons] at hnd
    have hsub' : L.toFinset ⊆ fetch.erase a := by
      intro x hx
      rw [List.mem_toFinset] at hx
      rw [Finset.mem_erase]
      exact ⟨fun hh => hnd.1 (hh ▸ hx), hsub (by simp [hx])⟩
    have hsdiff : fetch.erase a \ L.toFinset = fetch \ (a :: L).toFinset := by
      apply Finset.ext
      intro x
      simp only [Finset.mem_sdiff, Finset.mem_erase, List.toFinset_cons, Finset.mem_insert,
        List.mem_toFinset]
      constructor
      · rintro ⟨⟨hxa, hxf⟩, hxL⟩
        exact ⟨hxf, fun hh => by
          rcases hh with rfl | hh
          · exact hxa rfl
          · exact hxL hh⟩
      · rintro ⟨hxf, hno⟩
        push_neg at hno
        exact ⟨⟨hno.1, hxf⟩, fun hh => hno.2 hh⟩
    by_cases hre : (fetch.erase a).Nonempty
    · rw [mkLoading, if_pos hre]
      rcases ih (fetch.erase a) scratch' hnd.2 hsub'
        (fun x hx => hsubv (Finset.mem_of_mem_erase hx)) hwf' hfull' with hc | ⟨sc'', hrun, hw, hf⟩
      · left
        exact hc
      · right
        refine ⟨sc'', ?_, hw, ?_⟩
        · rw [hrun, hsdiff]
        · rw [hsdiff] at hf
          exact hf
    · have hemp : fetch.erase a = ∅ := Finset.not_nonempty_iff_eq_empty.mp hre
      have hL : L = [] := by
        cases L with
        | nil => rfl
        | cons b L' =>
          exfalso
          have : b ∈ fetch.erase a := hsub' (by simp)
          rw [hemp] at this
          simp at this
      left
      rw [mkLoading, if_neg hre, hL]
      simp only [List.map_nil]
      have hcont := scratchFull_empty_content (v := v) hS (by rw [← hemp]; exact hfull')
      exact checkCompletion_complete cfg v cp hS hwf'.1 hcont

theorem deliver_all_complete (cfg : SyncConf) (cov : CoverageSource) (cp : Checkpoint)
    (a : Artifact) : deliver_all cfg cov cp (.complete a) = .complete a := rfl

/-- A healthy state is driven to completion by one round of honest
deliveries of its outstanding ids. -/
theorem deliver_all_of_goodOrFull (cfg : SyncConf) (cov : CoverageSource) (v : Nat)
    (cp : Checkpoint) (hS : 0 < cfg.chunkSize)
    (hN : (mOfConf cfg v cp).chunk_table.length < FILE_GROUP_CHUNK_ID_OFFSET)
    {s : DownloadState} (h : GoodOrFull cfg v cp s) :
    deliver_all cfg cov cp s = .complete (goodArtifact cfg v cp) := by
  rcases h with hc | ⟨fetch, scratch, rfl, hne, hsubv, hwf, hfull⟩
  · rw [hc]
    rfl
  · rw [deliver_all]
    apply runSync_good cfg cov v cp hS hN _ _
      (Or.inr ⟨fetch, scratch, rfl, hne, hsubv, hwf, hfull⟩)
    · intro d hd
      rw [List.mem_map] at hd
      obtain ⟨id, _, rfl⟩ := hd
      rfl
    · intro x hx
      rw [chunks_to_download] at hx
      rw [List.map_map, List.mem_toFinset, List.mem_map]
      refine ⟨x, ?_, rfl⟩
      rw [Finset.mem_sort]
      exact hx

/-- One round of honest deliveries over any well-shaped `Loading` state ends
healthy. -/
theorem deliver_all_weakLoading (cfg : SyncConf) (cov : CoverageSource) (v : Nat)
    (cp : Checkpoint) (hS : 0 < cfg.chunkSize)
    (hN : (mOfConf cfg v cp).chunk_table.length < FILE_GROUP_CHUNK_ID_OFFSET)
    {fetch : Finset Nat} {scratch : List Bytes} (hne : fetch.Nonempty)
    (hsubv : fetch ⊆ validIds (mOfConf cfg v cp) (groupsOfConf cfg v cp))
    (hwf : scratchWF cp scratch) :
    GoodOrFull cfg v cp (deliver_all cfg cov cp
      (.loading (mOfConf cfg v cp) (groupsOfConf cfg v cp) fetch scratch)) := by
  rw [deliver_all]
  apply runSync_weak cfg cov v cp hS hN (fetch.sort (· ≤ ·)) fetch scratch
    (Finset.sort_nodup _ _) ?_ hne hsubv hwf
  apply Finset.ext
  intro x
  rw [List.mem_toFinset, Finset.mem_sort]

theorem add_chunk_manifest (cfg : SyncConf) (cov : CoverageSource) (v : Nat) (cp : Checkpoint)
    (hroot : cfg.rootHash = manifestHash (mOfConf cfg v cp)) :
    add_chunk cfg cov .blank 0 (.manifest (mOfConf cfg v cp)) =
      mkLoading cfg (mOfConf cfg v cp) (groupsOfConf cfg v cp)
        (init_coverage cov (mOfConf cfg v cp) (groupsOfConf cfg v cp)).2
        (init_coverage cov (mOfConf cfg v cp) (groupsOfConf cfg v cp)).1 := by
  simp only [add_chunk]
  rw [if_pos hroot.symm]
  rfl

theorem initFetchLocal_subset_valid (m : Manifest) (groups : List (Nat × List Nat))
    (plan : Finset Nat) : initFetchLocal m groups plan ⊆ validIds m groups := by
  intro x hx
  rw [initFetchLocal, Finset.mem_union] at hx
  rw [validIds, Finset.mem_union]
  rcases hx with hx | hx
  · left
    rw [List.mem_toFinset, List.mem_map] at hx
    obtain ⟨j, hj, rfl⟩ := hx
    rw [List.mem_filter] at hj
    rw [Finset.mem_image]
    exact ⟨j, by simpa using List.mem_range.mp hj.1, rfl⟩
  · right
    rw [List.mem_toFinset, List.mem_map] at hx ⊢
    obtain ⟨g, hg, rfl⟩ := hx
    rw [List.mem_filter] at hg
    exact ⟨g, hg.1, rfl⟩

theorem pending_initFetchLocal {m : Manifest} {groups : List (Nat × List Nat)}
    {plan : Finset Nat} {j : Nat} (hj : j < m.chunk_table.length) (hnp : j ∉ plan) :
    pendingChunk groups (initFetchLocal m groups plan) j := by
  by_cases hg : isGrouped groups j = true
  · right
    obtain ⟨g, hgmem, hjmem⟩ := isGrouped_iff.mp hg
    refine ⟨g, hgmem, hjmem, ?_⟩
    rw [initFetchLocal, Finset.mem_union]
    right
    rw [List.mem_toFinset, List.mem_map]
    refine ⟨g, ?_, rfl⟩
    rw [List.mem_filter]
    refine ⟨hgmem, ?_⟩
    rw [List.any_eq_true]
    exact ⟨j, hjmem, by simp [hnp]⟩
  · have hg' : isGrouped groups j = false := by simpa using hg
    left
    refine ⟨?_, hg'⟩
    rw [initFetchLocal, Finset.mem_union]
    left
    rw [List.mem_toFinset, List.mem_map]
    refine ⟨j, ?_, rfl⟩
    rw [List.mem_filter]
    exact ⟨List.mem_range.mpr hj, by simp [hnp, hg']⟩

theorem zeroScratch_length (v S : Nat) (cp : Checkpoint) :
    (zeroScratch (compute_manifest v S cp)).length = cp.length := by
  rw [zeroScratch, List.length_map, compute_manifest_file_table_length]

theorem zeroScratch_getD {v S : Nat} {cp : Checkpoint} {f : Nat} (hf : f < cp.length) :
    (zeroScratch (compute_manifest v S cp)).getD f [] = zeros (contentOf cp f).length := by
  cases hpb : cp[f]? with
  | none =>
    rw [List.getElem?_eq_none_iff] at hpb
    omega
  | some pb =>
    rw [zeroScratch, List.getD_eq_getElem?_getD, List.getElem?_map,
      compute_manifest_file_table_getElem?, hpb, contentOf_getElem? hpb]
    rfl

theorem zeroScratch_wf (v S : Nat) (cp : Checkpoint) :
    scratchWF cp (zeroScratch (compute_manifest v S cp)) := by
  refine ⟨zeroScratch_length v S cp, ?_⟩
  intro f hf h0
  rw [zeroScratch_getD hf, h0]
  rfl

theorem zeroScratch_full (cfg : SyncConf) (v : Nat) (cp : Checkpoint) (plan : Finset Nat)
    (hplan : plan = ∅) :
    scratchFull v cfg.chunkSize cp (groupsOfConf cfg v cp)
      (initFetchLocal (mOfConf cfg v cp) (groupsOfConf cfg v cp) plan)
      (zeroScratch (mOfConf cfg v cp)) := by
  have hmr : mOfConf cfg v cp = compute_manifest v cfg.chunkSize cp := rfl
  constructor
  · intro f hf
    have hz : (zeroScratch (compute_manifest v cfg.chunkSize cp)).getD f [] =
        zeros (contentOf cp f).length := zeroScratch_getD hf
    rw [hmr, hz, zeros, List.length_replicate]
  · intro j ci hci
    left
    apply pending_initFetchLocal
    · rw [hmr]
      by_contra hno
      rw [List.getElem?_eq_none (by omega)] at hci
      cases hci
    · rw [hplan]
      exact Finset.not_mem_empty j

theorem chunkIndicesOfFile_nil {v S : Nat} (hS : 0 < S) {cp : Checkpoint} {f : Nat}
    (h0 : contentOf cp f = []) :
    chunkIndicesOfFile (compute_manifest v S cp) f = [] := by
  rw [List.eq_nil_iff_forall_not_mem]
  intro j hj
  obtain ⟨ci, hci, hfi⟩ := mem_chunkIndicesOfFile.mp hj
  obtain ⟨_, hbound, hpos, _, _⟩ := chunk_table_mem hS (List.getElem?_mem hci)
  rw [hfi, h0] at hbound
  simp at hbound
  omega

theorem localScratch_length (v S : Nat) (cp : Checkpoint) (plan : Finset Nat)
    (localFiles : Checkpoint) :
    (localScratch (compute_manifest v S cp) plan localFiles).length = cp.length := by
  rw [localScratch, List.length_map, List.enum_length, compute_manifest_file_table_length]

theorem localScratch_wf {v S : Nat} (hS : 0 < S) (cp : Checkpoint) (plan : Finset Nat)
    (localFiles : Checkpoint) :
    scratchWF cp (localScratch (compute_manifest v S cp) plan localFiles) := by
  refine ⟨localScratch_length v S cp plan localFiles, ?_⟩
  intro f hf h0
  cases hpb : cp[f]? with
  | none =>
    rw [List.getElem?_eq_none_iff] at hpb
    omega
  | some pb =>
    have hpb2 : pb.2 = [] := by
      rw [contentOf_getElem? hpb] at h0
      exact h0
    have hcz : chunkIndicesOfFile (compute_manifest v S cp) f = [] :=
      chunkIndicesOfFile_nil hS h0
    rw [localScratch, List.getD_eq_getElem?_getD, List.getElem?_map, List.getElem?_enum,
      compute_manifest_file_table_getElem?, hpb]
    simp only [Option.map_some']
    rw [hcz]
    simp [hpb2, zeros]

theorem lookup_of_fst_nodup :
    ∀ (cp : Checkpoint), (cp.map Prod.fst).Nodup →
      ∀ (f : Nat) (pb : String × Bytes), cp[f]? = some pb →
        List.lookup pb.1 cp = some pb.2 := by
  intro cp
  induction cp with
  | nil =>
    intro _ f pb hpb
    cases f <;> cases hpb
  | cons q cp ih =>
    obtain ⟨k, w⟩ := q
    intro hnd f pb hpb
    rw [List.map_cons, List.nodup_cons] at hnd
    cases f with
    | zero =>
      rw [List.getElem?_cons_zero] at hpb
      cases hpb
      simp [List.lookup]
    | succ f =>
      rw [List.getElem?_cons_succ] at hpb
      have hmem : pb.1 ∈ List.map Prod.fst cp :=
        List.mem_map_of_mem Prod.fst (List.getElem?_mem hpb)
      have hne : (pb.1 == k) = false := by
        rw [beq_eq_false_iff_ne]
        intro heq
        exact hnd.1 (heq ▸ hmem)
      simp only [List.lookup, hne]
      exact ih hnd.2 f pb hpb

theorem cacheScratch_length (v S : Nat) (cp : Checkpoint) (e : CacheEntry) :
    (cacheScratch (compute_manifest v S cp) e).length = cp.length := by
  rw [cacheScratch, List.length_map, compute_manifest_file_table_length]

theorem cacheScratch_getD_of_files {v S : Nat} {cp : Checkpoint} {e : CacheEntry}
    (hfiles : e.files = cp) (hnd : (cp.map Prod.fst).Nodup) {f : Nat} (hf : f < cp.length) :
    (cacheScratch (compute_manifest v S cp) e).getD f [] = contentOf cp f := by
  cases hpb : cp[f]? with
  | none =>
    rw [List.getElem?_eq_none_iff] at hpb
    omega
  | some pb =>
    rw [cacheScratch, List.getD_eq_getElem?_getD, List.getElem?_map,
      compute_manifest_file_table_getElem?, hpb]
    simp only [Option.map_some']
    rw [hfiles, lookup_of_fst_nodup cp hnd f pb hpb, contentOf_getElem? hpb]
    rfl

theorem mem_initFetchCache {m : Manifest} {groups : List (Nat × List Nat)}
    {missing : Finset Nat} {x : Nat} :
    x ∈ initFetchCache m groups missing ↔
      (∃ j ∈ missing, isGrouped groups j = false ∧ x = j + 1) ∨
        ∃ g ∈ groups, x = g.1 := by
  rw [initFetchCache, Finset.mem_union, Finset.mem_image, List.mem_toFinset, List.mem_map]
  constructor
  · rintro (⟨j, hj, rfl⟩ | ⟨g, hg, rfl⟩)
    · rw [Finset.mem_filter] at hj
      left
      exact ⟨j, hj.1, by simpa using hj.2, rfl⟩
    · right
      exact ⟨g, hg, rfl⟩
  · rintro (⟨j, hj, hng, rfl⟩ | ⟨g, hg, rfl⟩)
    · left
      refine ⟨j, ?_, rfl⟩
      rw [Finset.mem_filter]
      exact ⟨hj, by simp [hng]⟩
    · right
      exact ⟨g, hg, rfl⟩

/-- C3: for a sync whose initial outstanding set was reduced by copying
chunks from a local checkpoint, with the copied bytes arbitrary (possibly
corrupt in any way), delivering the honest payloads for the outstanding ids
and, after the completion-time re-validation re-adds the disagreeing files'
chunks, for the re-added ids, terminates in `Complete` with a state equal to
the source checkpoint. -/
theorem corruption_recovery (cfg : SyncConf) (v : Nat) (cp : Checkpoint)
    (plan : Finset Nat) (localFiles : Checkpoint) (hS : 0 < cfg.chunkSize)
    (hroot : cfg.rootHash = manifestHash (mOfConf cfg v cp))
    (hN : (mOfConf cfg v cp).chunk_table.length < FILE_GROUP_CHUNK_ID_OFFSET) :
    deliver_all cfg (.fromLocal plan localFiles) cp
      (deliver_all cfg (.fromLocal plan localFiles) cp
        (add_chunk cfg (.fromLocal plan localFiles) .blank 0
          (.manifest (mOfConf cfg v cp)))) =
      .complete (goodArtifact cfg v cp) := by
  rw [add_chunk_manifest cfg (.fromLocal plan localFiles) v cp hroot]
  have hinit : init_coverage (.fromLocal plan localFiles) (mOfConf cfg v cp)
      (groupsOfConf cfg v cp) =
      (localScratch (mOfConf cfg v cp) plan localFiles,
        initFetchLocal (mOfConf cfg v cp) (groupsOfConf cfg v cp) plan) := rfl
  rw [hinit]
  have hwf : scratchWF cp (localScratch (mOfConf cfg v cp) plan localFiles) :=
    localScratch_wf hS cp plan localFiles
  by_cases hne : (initFetchLocal (mOfConf cfg v cp) (groupsOfConf cfg v cp) plan).Nonempty
  · rw [mkLoading, if_pos hne]
    exact deliver_all_of_goodOrFull cfg _ v cp hS hN
      (deliver_all_weakLoading cfg _ v cp hS hN hne
        (initFetchLocal_subset_valid _ _ _) hwf)
  · rw [mkLoading, if_neg hne]
    rw [deliver_all_of_goodOrFull cfg _ v cp hS hN
      (checkCompletion_goodOrFull cfg v cp hS hwf), deliver_all_complete]

/-- C3 witness: a one-file checkpoint whose local copy is fully corrupt is
still recovered exactly. -/
theorem corruption_recovery_w :
    deliver_all ⟨7, manifestHash (compute_manifest 1 2 [("a", [1, 2, 3, 4])]), 2, 0⟩
      (.fromLocal {0} [("a", [9, 9, 9, 9])]) [("a", [1, 2, 3, 4])]
      (deliver_all ⟨7, manifestHash (compute_manifest 1 2 [("a", [1, 2, 3, 4])]), 2, 0⟩
        (.fromLocal {0} [("a", [9, 9, 9, 9])]) [("a", [1, 2, 3, 4])]
        (add_chunk ⟨7, manifestHash (compute_manifest 1 2 [("a", [1, 2, 3, 4])]), 2, 0⟩
          (.fromLocal {0} [("a", [9, 9, 9, 9])]) .blank 0
          (.manifest (mOfConf
            ⟨7, manifestHash (compute_manifest 1 2 [("a", [1, 2, 3, 4])]), 2, 0⟩ 1
            [("a", [1, 2, 3, 4])])))) =
      .complete (goodArtifact
        ⟨7, manifestHash (compute_manifest 1 2 [("a", [1, 2, 3, 4])]), 2, 0⟩ 1
        [("a", [1, 2, 3, 4])]) :=
  corruption_recovery _ 1 _ {0} [("a", [9, 9, 9, 9])] (by decide) rfl (by decide)

/-- C1: feeding a fresh download chunk 0 (the manifest of checkpoint `cp`)
followed by every chunk-table and group-chunk entry with its honest bytes,
in any order, yields `Complete` with a checkpoint byte-identical to `cp`. -/
theorem round_trip_any_order (cfg : SyncConf) (v : Nat) (cp : Checkpoint)
    (hS : 0 < cfg.chunkSize)
    (hroot : cfg.rootHash = manifestHash (mOfConf cfg v cp))
    (hN : (mOfConf cfg v cp).chunk_table.length < FILE_GROUP_CHUNK_ID_OFFSET)
    {ds : List (Nat × Payload)}
    (hperm : ds.Perm (fullDeliveries cp (mOfConf cfg v cp) (groupsOfConf cfg v cp))) :
    runSync cfg .fresh (add_chunk cfg .fresh .blank 0 (.manifest (mOfConf cfg v cp))) ds =
      .complete (goodArtifact cfg v cp) := by
  rw [add_chunk_manifest cfg .fresh v cp hroot]
  have hinit : init_coverage .fresh (mOfConf cfg v cp) (groupsOfConf cfg v cp) =
      (zeroScratch (mOfConf cfg v cp),
        initFetchLocal (mOfConf cfg v cp) (groupsOfConf cfg v cp) ∅) := rfl
  rw [hinit]
  have hwf : scratchWF cp (zeroScratch (mOfConf cfg v cp)) := zeroScratch_wf v cfg.chunkSize cp
  have hfull := zeroScratch_full cfg v cp ∅ rfl
  have hok : ∀ d ∈ ds,
      d.2 = correctPayload cp (mOfConf cfg v cp) (groupsOfConf cfg v cp) d.1 := by
    intro d hd
    have hd' := hperm.mem_iff.mp hd
    rw [fullDeliveries, List.mem_append] at hd'
    rcases hd' with hd' | hd' <;>
      (rw [List.mem_map] at hd'; obtain ⟨a, _, rfl⟩ := hd'; rfl)
  have hids : validIds (mOfConf cfg v cp) (groupsOfConf cfg v cp) ⊆
      (ds.map (fun d => d.1)).toFinset := by
    intro x hx
    have hmapperm : (ds.map (fun d => d.1)).Perm
        ((fullDeliveries cp (mOfConf cfg v cp) (groupsOfConf cfg v cp)).map
          (fun d => d.1)) := hperm.map _
    rw [List.mem_toFinset, hmapperm.mem_iff]
    rw [validIds, Finset.mem_union] at hx
    rw [fullDeliveries, List.map_append, List.mem_append]
    rcases hx with hx | hx
    · left
      rw [Finset.mem_image] at hx
      obtain ⟨j, hj, rfl⟩ := hx
      rw [List.map_map, List.mem_map]
      exact ⟨j, List.mem_range.mpr (Finset.mem_range.mp hj), rfl⟩
    · right
      rw [List.mem_toFinset, List.mem_map] at hx
      obtain ⟨g, hg, rfl⟩ := hx
      rw [List.map_map, List.mem_map]
      exact ⟨g, hg, rfl⟩
  by_cases hne : (initFetchLocal (mOfConf cfg v cp) (groupsOfConf cfg v cp) ∅).Nonempty
  · rw [mkLoading, if_pos hne]
    apply runSync_good cfg .fresh v cp hS hN ds _
      (Or.inr ⟨_, _, rfl, hne, initFetchLocal_subset_valid _ _ _, hwf, hfull⟩) hok
    intro x hx
    rw [chunks_to_download] at hx
    exact hids (initFetchLocal_subset_valid _ _ _ hx)
  · rw [mkLoading, if_neg hne]
    have hemp : initFetchLocal (mOfConf cfg v cp) (groupsOfConf cfg v cp) ∅ = ∅ :=
      Finset.not_nonempty_iff_eq_empty.mp hne
    have hfull0 : scratchFull v cfg.chunkSize cp (groupsOfConf cfg v cp) ∅
        (zeroScratch (mOfConf cfg v cp)) := by
      rw [← hemp]
      exact hfull
    have hcont := scratchFull_empty_content (v := v) hS hfull0
    rw [checkCompletion_complete cfg v cp hS hwf.1 hcont, runSync_complete]

/-- C1 witness: a checkpoint with a grouped file, delivered in reverse
order, is reconstructed exactly. -/
theorem round_trip_any_order_w :
    runSync ⟨9, manifestHash (compute_manifest 1 2 [("a", [5])]), 2, 2⟩ .fresh
      (add_chunk ⟨9, manifestHash (compute_manifest 1 2 [("a", [5])]), 2, 2⟩ .fresh .blank 0
        (.manifest (mOfConf ⟨9, manifestHash (compute_manifest 1 2 [("a", [5])]), 2, 2⟩ 1
          [("a", [5])])))
      ((fullDeliveries [("a", [5])]
        (mOfConf ⟨9, manifestHash (compute_manifest 1 2 [("a", [5])]), 2, 2⟩ 1 [("a", [5])])
        (groupsOfConf ⟨9, manifestHash (compute_manifest 1 2 [("a", [5])]), 2, 2⟩ 1
          [("a", [5])])).reverse) =
      .complete (goodArtifact ⟨9, manifestHash (compute_manifest 1 2 [("a", [5])]), 2, 2⟩ 1
        [("a", [5])]) :=
  round_trip_any_order _ 1 _ (by decide) rfl (by decide) (List.reverse_perm _)

/-- C4 (amended): a download seeded from a cache entry with a matching
manifest starts with the outstanding set built from the cache's missing
chunks — the transfer ids of the missing ungrouped chunks plus every
file-group chunk id (group chunks are always re-fetched, not subtracted) —
and when the cached manifest is byte-identical to the target's, the cache
reports no missing chunks, there are no file groups, the cached files are
the source checkpoint and its paths are distinct, delivering chunk 0 alone
completes the sync immediately with the correct state. -/
theorem cache_coverage_subtraction (cfg : SyncConf) (v : Nat) (cp : Checkpoint)
    (e : CacheEntry) (hS : 0 < cfg.chunkSize)
    (hroot : cfg.rootHash = manifestHash (mOfConf cfg v cp))
    (hman : e.manifest = mOfConf cfg v cp) :
    ((initFetchCache (mOfConf cfg v cp) (groupsOfConf cfg v cp)
        e.missing_chunks).Nonempty →
      ∀ x, x ∈ chunks_to_download (add_chunk cfg (.fromCache e) .blank 0
          (.manifest (mOfConf cfg v cp))) ↔
        ((∃ j ∈ e.missing_chunks, isGrouped (groupsOfConf cfg v cp) j = false ∧ x = j + 1) ∨
          ∃ g ∈ groupsOfConf cfg v cp, x = g.1)) ∧
    (e.missing_chunks = ∅ → groupsOfConf cfg v cp = [] → e.files = cp →
      (cp.map Prod.fst).Nodup →
      add_chunk cfg (.fromCache e) .blank 0 (.manifest (mOfConf cfg v cp)) =
        .complete (goodArtifact cfg v cp)) := by
  rw [add_chunk_manifest cfg (.fromCache e) v cp hroot]
  have hinit : init_coverage (.fromCache e) (mOfConf cfg v cp) (groupsOfConf cfg v cp) =
      (cacheScratch (mOfConf cfg v cp) e,
        initFetchCache (mOfConf cfg v cp) (groupsOfConf cfg v cp) e.missing_chunks) := by
    simp only [init_coverage]
    rw [if_pos hman]
  rw [hinit]
  constructor
  · intro hne x
    rw [mkLoading, if_pos hne, chunks_to_download]
    exact @mem_initFetchCache (mOfConf cfg v cp) (groupsOfConf cfg v cp) e.missing_chunks x
  · intro h0 hgr hfiles hnd
    have hfe : initFetchCache (mOfConf cfg v cp) (groupsOfConf cfg v cp)
        e.missing_chunks = ∅ := by
      rw [initFetchCache, h0, hgr]
      simp
    rw [mkLoading, if_neg (by rw [hfe]; exact Finset.not_nonempty_empty)]
    have hlen : (cacheScratch (mOfConf cfg v cp) e).length = cp.length :=
      cacheScratch_length v cfg.chunkSize cp e
    have hcont : ∀ f, f < cp.length →
        (cacheScratch (mOfConf cfg v cp) e).getD f [] = contentOf cp f :=
      fun f hf => cacheScratch_getD_of_files hfiles hnd hf
    exact checkCompletion_complete cfg v cp hS hlen hcont

/-- C4 witness: the characterization and the amended immediate-completion
both hold at a one-file checkpoint with chunk 0 missing from the cache. -/
theorem cache_coverage_subtraction_w :
    ((initFetchCache
        (mOfConf ⟨9, manifestHash (compute_manifest 1 2 [("a", [5])]), 2, 0⟩ 1 [("a", [5])])
        (groupsOfConf ⟨9, manifestHash (compute_manifest 1 2 [("a", [5])]), 2, 0⟩ 1
          [("a", [5])])
        (CacheEntry.mk 4 (compute_manifest 1 2 [("a", [5])]) {0} [("a", [5])]).missing_chunks
        ).Nonempty →
      ∀ x, x ∈ chunks_to_download
          (add_chunk ⟨9, manifestHash (compute_manifest 1 2 [("a", [5])]), 2, 0⟩
            (.fromCache (CacheEntry.mk 4 (compute_manifest 1 2 [("a", [5])]) {0}
              [("a", [5])])) .blank 0
            (.manifest (mOfConf ⟨9, manifestHash (compute_manifest 1 2 [("a", [5])]), 2, 0⟩ 1
              [("a", [5])]))) ↔
        ((∃ j ∈ (CacheEntry.mk 4 (compute_manifest 1 2 [("a", [5])]) {0}
            [("a", [5])]).missing_chunks,
          isGrouped (groupsOfConf ⟨9, manifestHash (compute_manifest 1 2 [("a", [5])]), 2, 0⟩
            1 [("a", [5])]) j = false ∧ x = j + 1) ∨
          ∃ g ∈ groupsOfConf ⟨9, manifestHash (compute_manifest 1 2 [("a", [5])]), 2, 0⟩ 1
            [("a", [5])], x = g.1)) ∧
    ((CacheEntry.mk 4 (compute_manifest 1 2 [("a", [5])]) {0} [("a", [5])]).missing_chunks =
        ∅ →
      groupsOfConf ⟨9, manifestHash (compute_manifest 1 2 [("a", [5])]), 2, 0⟩ 1
        [("a", [5])] = [] →
      (CacheEntry.mk 4 (compute_manifest 1 2 [("a", [5])]) {0} [("a", [5])]).files =
        [("a", [5])] →
      (([("a", [5])] : Checkpoint).map Prod.fst).Nodup →
      add_chunk ⟨9, manifestHash (compute_manifest 1 2 [("a", [5])]), 2, 0⟩
        (.fromCache (CacheEntry.mk 4 (compute_manifest 1 2 [("a", [5])]) {0}
          [("a", [5])])) .blank 0
        (.manifest (mOfConf ⟨9, manifestHash (compute_manifest 1 2 [("a", [5])]), 2, 0⟩ 1
          [("a", [5])])) =
        .complete (goodArtifact ⟨9, manifestHash (compute_manifest 1 2 [("a", [5])]), 2, 0⟩
          1 [("a", [5])])) :=
  cache_coverage_subtraction _ 1 _ _ (by decide) rfl rfl

/-- C4 counterexample to the original claim: the cached manifest is
byte-identical to the target manifest (cached under a different height), yet
after delivering chunk 0 a chunk is still outstanding — the sync is in
`Loading`, not immediately `Complete` (a `Complete` state has no outstanding
chunks). -/
theorem cache_completion_cex :
    chunks_to_download
      (add_chunk ⟨9, manifestHash (compute_manifest 1 2 [("a", [5])]), 2, 0⟩
        (.fromCache (CacheEntry.mk 4 (compute_manifest 1 2 [("a", [5])]) {0}
          [("a", [5])])) .blank 0
        (.manifest (compute_manifest 1 2 [("a", [5])]))) = {1} ∧
    ∀ a : Artifact, chunks_to_download (DownloadState.complete a) = ∅ :=
  ⟨by decide, fun _ => rfl⟩

/-- Every chunk of a file smaller than the grouping threshold lies in some
file group, whose id is above the offset. -/
theorem grouped_of_small (cfg : SyncConf) (v : Nat) (cp : Checkpoint) (hS : 0 < cfg.chunkSize)
    {j : Nat} {ci : ChunkInfo} (hci : (mOfConf cfg v cp).chunk_table[j]? = some ci)
    (hsmall : fileSize (mOfConf cfg v cp) ci.file_index < cfg.threshold) :
    ∃ g ∈ groupsOfConf cfg v cp, FILE_GROUP_CHUNK_ID_OFFSET ≤ g.1 ∧ j ∈ g.2 := by
  have hmr : mOfConf cfg v cp = compute_manifest v cfg.chunkSize cp := rfl
  obtain ⟨hflt, _, _, _, _⟩ := chunk_table_mem hS (List.getElem?_mem hci)
  cases hft : (mOfConf cfg v cp).file_table[ci.file_index]? with
  | none =>
    exfalso
    rw [hmr, List.getElem?_eq_none_iff, compute_manifest_file_table_length] at hft
    omega
  | some fi =>
    have hsz : fi.size_bytes = fileSize (mOfConf cfg v cp) ci.file_index := by
      rw [fileSize, List.getD_eq_getElem?_getD, hft]
      rfl
    have helig : (ci.file_index, fi.size_bytes) ∈
        eligibleFiles cfg.threshold (mOfConf cfg v cp) := by
      rw [mem_eligibleFiles]
      exact ⟨fi, hft, rfl, by rw [hsz]; exact hsmall⟩
    have hflat : (ci.file_index, fi.size_bytes) ∈
        (greedyPack cfg.chunkSize (eligibleFiles cfg.threshold (mOfConf cfg v cp))).flatten := by
      rw [greedyPack_flatten]
      exact helig
    rw [List.mem_flatten] at hflat
    obtain ⟨p, hp, hfp⟩ := hflat
    obtain ⟨k, hk⟩ := List.mem_iff_getElem?.mp hp
    refine ⟨(FILE_GROUP_CHUNK_ID_OFFSET + k,
        (p.map (fun fs => chunkIndicesOfFile (mOfConf cfg v cp) fs.1)).flatten), ?_,
      Nat.le_add_right _ _, ?_⟩
    · have hgd : groupsOfConf cfg v cp =
          build_file_group_chunks cfg.threshold cfg.chunkSize (mOfConf cfg v cp) := rfl
      rw [hgd, build_file_group_chunks_eq, List.mem_map]
      refine ⟨(k, p), ?_, rfl⟩
      rw [List.mem_enum_iff_get?, List.get?_eq_getElem?]
      exact hk
    · rw [List.mem_flatten]
      refine ⟨chunkIndicesOfFile (mOfConf cfg v cp) ci.file_index, ?_, ?_⟩
      · rw [List.mem_map]
        exact ⟨(ci.file_index, fi.size_bytes), hfp, rfl⟩
      · rw [mem_chunkIndicesOfFile]
        exact ⟨ci, hci, rfl⟩

/-- C8 (amended): every chunk of a file smaller than the threshold lies in a
file group addressed at or above `FILE_GROUP_CHUNK_ID_OFFSET`; every group
member is a chunk of a file smaller than the threshold; each group's total
file bytes respect the chunk size as an upper bound; the number of groups is
at most the number of eligible files; and delivering exactly the (nonempty)
group chunks to a fresh sync reconstructs every grouped file exactly (or the
sync is already complete and correct). -/
theorem file_grouping_spec (cfg : SyncConf) (v : Nat) (cp : Checkpoint)
    (hS : 0 < cfg.chunkSize) (hTS : cfg.threshold ≤ cfg.chunkSize)
    (hroot : cfg.rootHash = manifestHash (mOfConf cfg v cp))
    (hN : (mOfConf cfg v cp).chunk_table.length < FILE_GROUP_CHUNK_ID_OFFSET) :
    (∀ j ci, (mOfConf cfg v cp).chunk_table[j]? = some ci →
      fileSize (mOfConf cfg v cp) ci.file_index < cfg.threshold →
      ∃ g ∈ groupsOfConf cfg v cp, FILE_GROUP_CHUNK_ID_OFFSET ≤ g.1 ∧ j ∈ g.2) ∧
    (∀ g ∈ groupsOfConf cfg v cp, ∀ j ∈ g.2, ∀ ci,
      (mOfConf cfg v cp).chunk_table[j]? = some ci →
      fileSize (mOfConf cfg v cp) ci.file_index < cfg.threshold) ∧
    (∀ p ∈ greedyPack cfg.chunkSize (eligibleFiles cfg.threshold (mOfConf cfg v cp)),
      (p.map (fun fs => fs.2)).sum ≤ cfg.chunkSize) ∧
    (groupsOfConf cfg v cp).length ≤
      (eligibleFiles cfg.threshold (mOfConf cfg v cp)).length ∧
    (runSync cfg .fresh (add_chunk cfg .fresh .blank 0 (.manifest (mOfConf cfg v cp)))
        ((((groupsOfConf cfg v cp).filter (fun g => !g.2.isEmpty)).map (fun g => g.1)).map
          (fun id => (id, correctPayload cp (mOfConf cfg v cp)
            (groupsOfConf cfg v cp) id))) =
        .complete (goodArtifact cfg v cp) ∨
      ∃ fetch' scratch',
        runSync cfg .fresh (add_chunk cfg .fresh .blank 0 (.manifest (mOfConf cfg v cp)))
          ((((groupsOfConf cfg v cp).filter (fun g => !g.2.isEmpty)).map (fun g => g.1)).map
            (fun id => (id, correctPayload cp (mOfConf cfg v cp)
              (groupsOfConf cfg v cp) id))) =
          .loading (mOfConf cfg v cp) (groupsOfConf cfg v cp) fetch' scratch' ∧
        ∀ f, f < cp.length → fileSize (mOfConf cfg v cp) f < cfg.threshold →
          scratch'.getD f [] = contentOf cp f) := by
  refine ⟨fun j ci hci hsmall => grouped_of_small cfg v cp hS hci hsmall, ?_, ?_, ?_, ?_⟩
  · intro g hg j hj ci hci
    obtain ⟨fsz, helig, hjf, _⟩ := build_member_block hg hj
    obtain ⟨ci', hci', hfi'⟩ := mem_chunkIndicesOfFile.mp hjf
    have hee : ci' = ci := by
      rw [hci'] at hci
      cases hci
      rfl
    subst hee
    obtain ⟨fi, hft, hsz, hlt⟩ := mem_eligibleFiles.mp helig
    rw [hfi', fileSize, List.getD_eq_getElem?_getD, hft]
    simp only [Option.getD_some]
    rw [hsz]
    exact hlt
  · intro p hp
    refine greedyPackGo_sizes cfg.chunkSize
      (eligibleFiles cfg.threshold (mOfConf cfg v cp)) [] 0 (by simp) (by omega) ?_ p hp
    intro fs hfs
    obtain ⟨fi, _, _, hlt⟩ := mem_eligibleFiles.mp hfs
    omega
  · have hgd : groupsOfConf cfg v cp =
        build_file_group_chunks cfg.threshold cfg.chunkSize (mOfConf cfg v cp) := rfl
    rw [hgd, build_file_group_chunks_eq, List.length_map, List.enum_length]
    exact greedyPack_count _ _
  · rw [add_chunk_manifest cfg .fresh v cp hroot]
    have hinit : init_coverage .fresh (mOfConf cfg v cp) (groupsOfConf cfg v cp) =
        (zeroScratch (mOfConf cfg v cp),
          initFetchLocal (mOfConf cfg v cp) (groupsOfConf cfg v cp) ∅) := rfl
    rw [hinit]
    have hwf : scratchWF cp (zeroScratch (mOfConf cfg v cp)) :=
      zeroScratch_wf v cfg.chunkSize cp
    have hfull := zeroScratch_full cfg v cp ∅ rfl
    by_cases hne : (initFetchLocal (mOfConf cfg v cp) (groupsOfConf cfg v cp) ∅).Nonempty
    · rw [mkLoading, if_pos hne]
      have hLnd : (((groupsOfConf cfg v cp).filter (fun g => !g.2.isEmpty)).map
          (fun g => g.1)).Nodup := by
        have hsub : (((groupsOfConf cfg v cp).filter (fun g => !g.2.isEmpty)).map
            (fun g => g.1)).Sublist ((groupsOfConf cfg v cp).map (fun g => g.1)) :=
          (List.filter_sublist _).map _
        exact hsub.nodup (build_keys_nodup _ _ _)
      have hLsub : (((groupsOfConf cfg v cp).filter (fun g => !g.2.isEmpty)).map
          (fun g => g.1)).toFinset ⊆
          initFetchLocal (mOfConf cfg v cp) (groupsOfConf cfg v cp) ∅ := by
        intro x hx
        rw [List.mem_toFinset, List.mem_map] at hx
        obtain ⟨g, hgf, rfl⟩ := hx
        rw [List.mem_filter] at hgf
        obtain ⟨hgmem, hgne⟩ := hgf
        rw [initFetchLocal, Finset.mem_union]
        right
        rw [List.mem_toFinset, List.mem_map]
        refine ⟨g, ?_, rfl⟩
        rw [List.mem_filter]
        refine ⟨hgmem, ?_⟩
        rw [List.any_eq_true]
        cases hg2 : g.2 with
        | nil => exact absurd hg2 (by simpa using hgne)
        | cons a l => exact ⟨a, by simp, by simp⟩
      rcases runSync_partial cfg .fresh v cp hS hN _ _ _ hLnd hLsub
        (initFetchLocal_subset_valid _ _ _) hwf hfull with hc | ⟨scratch', hrun, _, hfull'⟩
      · left
        exact hc
      · right
        refine ⟨_, scratch', hrun, ?_⟩
        intro f hf hsize
        apply scratch_file_eq (v := v) hS hf (hfull'.1 f hf)
        intro ci hci hfi
        obtain ⟨j, hj⟩ := List.mem_iff_getElem?.mp hci
        rcases hfull'.2 j ci hj with hpend | hok
        · exfalso
          rcases hpend with ⟨_, hng⟩ | ⟨g', hg', hjg', hgin⟩
          · obtain ⟨g, hg, _, hjg⟩ := grouped_of_small cfg v cp hS hj
              (by rw [hfi]; exact hsize)
            have hgt := isGrouped_iff.mpr ⟨g, hg, hjg⟩
            rw [hng] at hgt
            cases hgt
          · rw [Finset.mem_sdiff] at hgin
            apply hgin.2
            rw [List.mem_toFinset, List.mem_map]
            refine ⟨g', ?_, rfl⟩
            rw [List.mem_filter]
            refine ⟨hg', ?_⟩
            have hne' : g'.2 ≠ [] := List.ne_nil_of_mem hjg'
            simp [List.isEmpty_iff, hne']
        · rw [hfi] at hok
          exact hok
    · left
      rw [mkLoading, if_neg hne]
      have hemp : initFetchLocal (mOfConf cfg v cp) (groupsOfConf cfg v cp) ∅ = ∅ :=
        Finset.not_nonempty_iff_eq_empty.mp hne
      have hfull0 : scratchFull v cfg.chunkSize cp (groupsOfConf cfg v cp) ∅
          (zeroScratch (mOfConf cfg v cp)) := by
        rw [← hemp]
        exact hfull
      rw [checkCompletion_complete cfg v cp hS hwf.1
        (scratchFull_empty_content (v := v) hS hfull0), runSync_complete]

/-- C8 witness: a one-file checkpoint below the threshold — its only chunk
is grouped, the group respects the bounds, and delivering the group chunk
reconstructs the file. -/
theorem file_grouping_spec_w :
    (∀ j ci, (mOfConf ⟨9, manifestHash (compute_manifest 1 2 [("a", [5])]), 2, 2⟩ 1
        [("a", [5])]).chunk_table[j]? = some ci →
      fileSize (mOfConf ⟨9, manifestHash (compute_manifest 1 2 [("a", [5])]), 2, 2⟩ 1
        [("a", [5])]) ci.file_index < 2 →
      ∃ g ∈ groupsOfConf ⟨9, manifestHash (compute_manifest 1 2 [("a", [5])]), 2, 2⟩ 1
        [("a", [5])], FILE_GROUP_CHUNK_ID_OFFSET ≤ g.1 ∧ j ∈ g.2) ∧
    (∀ g ∈ groupsOfConf ⟨9, manifestHash (compute_manifest 1 2 [("a", [5])]), 2, 2⟩ 1
        [("a", [5])], ∀ j ∈ g.2, ∀ ci,
      (mOfConf ⟨9, manifestHash (compute_manifest 1 2 [("a", [5])]), 2, 2⟩ 1
        [("a", [5])]).chunk_table[j]? = some ci →
      fileSize (mOfConf ⟨9, manifestHash (compute_manifest 1 2 [("a", [5])]), 2, 2⟩ 1
        [("a", [5])]) ci.file_index < 2) ∧
    (∀ p ∈ greedyPack 2 (eligibleFiles 2
        (mOfConf ⟨9, manifestHash (compute_manifest 1 2 [("a", [5])]), 2, 2⟩ 1
          [("a", [5])])),
      (p.map (fun fs => fs.2)).sum ≤ 2) ∧
    (groupsOfConf ⟨9, manifestHash (compute_manifest 1 2 [("a", [5])]), 2, 2⟩ 1
        [("a", [5])]).length ≤
      (eligibleFiles 2 (mOfConf ⟨9, manifestHash (compute_manifest 1 2 [("a", [5])]), 2, 2⟩
        1 [("a", [5])])).length ∧
    (runSync ⟨9, manifestHash (compute_manifest 1 2 [("a", [5])]), 2, 2⟩ .fresh
        (add_chunk ⟨9, manifestHash (compute_manifest 1 2 [("a", [5])]), 2, 2⟩ .fresh .blank
          0 (.manifest (mOfConf ⟨9, manifestHash (compute_manifest 1 2 [("a", [5])]), 2, 2⟩
            1 [("a", [5])])))
        ((((groupsOfConf ⟨9, manifestHash (compute_manifest 1 2 [("a", [5])]), 2, 2⟩ 1
            [("a", [5])]).filter (fun g => !g.2.isEmpty)).map (fun g => g.1)).map
          (fun id => (id, correctPayload [("a", [5])]
            (mOfConf ⟨9, manifestHash (compute_manifest 1 2 [("a", [5])]), 2, 2⟩ 1
              [("a", [5])])
            (groupsOfConf ⟨9, manifestHash (compute_manifest 1 2 [("a", [5])]), 2, 2⟩ 1
              [("a", [5])]) id))) =
        .complete (goodArtifact ⟨9, manifestHash (compute_manifest 1 2 [("a", [5])]), 2, 2⟩
          1 [("a", [5])]) ∨
      ∃ fetch' scratch',
        runSync ⟨9, manifestHash (compute_manifest 1 2 [("a", [5])]), 2, 2⟩ .fresh
          (add_chunk ⟨9, manifestHash (compute_manifest 1 2 [("a", [5])]), 2, 2⟩ .fresh
            .blank 0
            (.manifest (mOfConf ⟨9, manifestHash (compute_manifest 1 2 [("a", [5])]), 2, 2⟩
              1 [("a", [5])])))
          ((((groupsOfConf ⟨9, manifestHash (compute_manifest 1 2 [("a", [5])]), 2, 2⟩ 1
              [("a", [5])]).filter (fun g => !g.2.isEmpty)).map (fun g => g.1)).map
            (fun id => (id, correctPayload [("a", [5])]
              (mOfConf ⟨9, manifestHash (compute_manifest 1 2 [("a", [5])]), 2, 2⟩ 1
                [("a", [5])])
              (groupsOfConf ⟨9, manifestHash (compute_manifest 1 2 [("a", [5])]), 2, 2⟩ 1
                [("a", [5])]) id))) =
          .loading (mOfConf ⟨9, manifestHash (compute_manifest 1 2 [("a", [5])]), 2, 2⟩ 1
              [("a", [5])])
            (groupsOfConf ⟨9, manifestHash (compute_manifest 1 2 [("a", [5])]), 2, 2⟩ 1
              [("a", [5])]) fetch' scratch' ∧
        ∀ f, f < ([("a", [5])] : Checkpoint).length →
          fileSize (mOfConf ⟨9, manifestHash (compute_manifest 1 2 [("a", [5])]), 2, 2⟩ 1
            [("a", [5])]) f < 2 →
          scratch'.getD f [] = contentOf [("a", [5])] f) :=
  file_grouping_spec ⟨9, manifestHash (compute_manifest 1 2 [("a", [5])]), 2, 2⟩ 1
    [("a", [5])] (by decide) (by decide) rfl (by decide)

/-- C8 counterexample to the original bound: with chunk size 10 and
threshold 8, three 6-byte files are all eligible (K = 3) yet produce 3 group
chunks — not fewer than K, and more than ceil(total grouped bytes / chunk
size) = 2, because greedy packing cannot split a file across groups. -/
theorem grouping_bound_cex :
    (build_file_group_chunks 8 10 (compute_manifest 1 10
        [("a", [1, 1, 1, 1, 1, 1]), ("b", [2, 2, 2, 2, 2, 2]),
          ("c", [3, 3, 3, 3, 3, 3])])).length = 3 ∧
    (eligibleFiles 8 (compute_manifest 1 10
        [("a", [1, 1, 1, 1, 1, 1]), ("b", [2, 2, 2, 2, 2, 2]),
          ("c", [3, 3, 3, 3, 3, 3])])).length = 3 ∧
    ¬((build_file_group_chunks 8 10 (compute_manifest 1 10
        [("a", [1, 1, 1, 1, 1, 1]), ("b", [2, 2, 2, 2, 2, 2]),
          ("c", [3, 3, 3, 3, 3, 3])])).length <
      (eligibleFiles 8 (compute_manifest 1 10
        [("a", [1, 1, 1, 1, 1, 1]), ("b", [2, 2, 2, 2, 2, 2]),
          ("c", [3, 3, 3, 3, 3, 3])])).length) ∧
    ¬((build_file_group_chunks 8 10 (compute_manifest 1 10
        [("a", [1, 1, 1, 1, 1, 1]), ("b", [2, 2, 2, 2, 2, 2]),
          ("c", [3, 3, 3, 3, 3, 3])])).length ≤ (6 + 6 + 6 + 10 - 1) / 10) := by
  decide

end StateSync
